import Mathlib

/-!
Verification development for the concurrent_data_structures repository.

The repository provides two MPMC blocking FIFO queues:
  - array_blocking_queue (array_blocking_queue.h), a fixed-capacity
    ticket/turn queue over a flat array of slots, and
  - linked_blocking_queue (linked_blocking_queue.h), an unbounded
    linked-node queue with a sentinel placeholder at the tail and a
    free-list of recycled nodes.

This file gives a shallow embedding of the sequential (single-thread)
semantics of both data structures, translated statement by statement from
the source, and proves the specified functional properties over it.
Machine pointers are modelled as indices into a growable list of cells,
a null pointer as Option.none, and raw element storage as an explicit
cell state (uninitialized / live value / moved-from value).  A blocking
operation that can never be released in a sequential execution (a spin
wait whose turn never comes, a condition-variable wait on an empty
queue) is modelled as returning Option.none: the operation does not
complete.
-/

namespace ABQ

/-- Slot index of a ticket, from the source: ticket and (capacity - 1). -/
def get_idx (capacity ticket : Nat) : Nat := ticket &&& (capacity - 1)

/-- Turn value a producer waits for, from the source: ticket / capacity * 2. -/
def get_write_turn (capacity ticket : Nat) : Nat := ticket / capacity * 2

/-- Turn value a consumer waits for, from the source: ticket / capacity * 2 + 1. -/
def get_read_turn (capacity ticket : Nat) : Nat := ticket / capacity * 2 + 1

/-- The capacity validation performed by the constructor of
array_blocking_queue: assert(capacity > 1); assert(capacity % 2 == 0).
Note that the second assert checks evenness, not being a power of two. -/
def ctor_accepts (capacity : Nat) : Bool :=
  decide (1 < capacity) && decide (capacity % 2 = 0)

/-- Spec-side predicate (not from the source): capacity is a power of two.
The spec requires the constructor to reject every capacity that is 0, 1 or
not a power of two. -/
def isPowerOfTwoB : Nat → Bool
  | 0 => false
  | 1 => true
  | n + 2 => decide ((n + 2) % 2 = 0) && isPowerOfTwoB ((n + 2) / 2)
decreasing_by exact Nat.div_lt_self (by omega) (by omega)

/-- State of an array_blocking_queue: the turn counter and the element
storage of each slot (the storage holds at most one constructed element,
modelled as Option), plus the head and tail ticket counters. -/
structure AState (T : Type) where
  capacity : Nat
  turns : List Nat
  vals : List (Option T)
  head : Nat
  tail : Nat
deriving DecidableEq

/-- The queue right after construction: all slot turns 0, all storage
uninitialized, head and tail tickets 0. -/
def initA (T : Type) (capacity : Nat) : AState T :=
  { capacity := capacity
    turns := List.replicate capacity 0
    vals := List.replicate capacity none
    head := 0
    tail := 0 }

/-- slot_t::has_val from the source: turn_.load() & 1 (as a boolean). -/
def has_val (q : AState T) (i : Nat) : Bool :=
  decide ((q.turns.getD i 0) &&& 1 ≠ 0)

/-- Sequential semantics of emplace (the blocking push family).  The source
claims a ticket with tail_.fetch_add(1), then spins until the slot turn
equals get_write_turn(ticket), then constructs the value into the slot and
stores get_read_turn(ticket) into the turn (done_writing).  In a
single-thread execution no other thread ever advances the turn, so the
call completes exactly when the turn already matches; otherwise the spin
never ends and the operation does not complete (none). -/
def emplace (q : AState T) (v : T) : Option (AState T) :=
  let ticket := q.tail
  let i := get_idx q.capacity ticket
  if q.turns.getD i 0 = get_write_turn q.capacity ticket then
    some { q with
      tail := ticket + 1
      vals := q.vals.set i (some v)
      turns := q.turns.set i (get_read_turn q.capacity ticket) }
  else none

/-- Sequential semantics of pop (the blocking pop family).  The source
claims a ticket with head_.fetch_add(1), spins until the slot turn equals
get_read_turn(ticket), then moves the value out, destroys the in-slot
object and advances the turn by one (done_reading).  Reading the storage
of a slot that holds no constructed object is undefined; the model gets
stuck (none) there, and the reachable-state invariant proves that case
never arises. -/
def pop (q : AState T) : Option (AState T × T) :=
  let ticket := q.head
  let i := get_idx q.capacity ticket
  if q.turns.getD i 0 = get_read_turn q.capacity ticket then
    match q.vals.getD i none with
    | some v =>
      some ({ q with
        head := ticket + 1
        vals := q.vals.set i none
        turns := q.turns.set i (q.turns.getD i 0 + 1) }, v)
    | none => none
  else none

/-- Sequential semantics of try_emplace (non-blocking push).  The source
loads tail_ as a candidate ticket and loops: if the slot turn matches the
expected write turn it CASes tail_ and constructs; in a single-thread
execution the CAS always succeeds.  If the turn does not match it reloads
tail_; with no other thread tail_ is unchanged, so it returns false.
Either way the loop runs exactly one iteration. -/
def try_emplace (q : AState T) (v : T) : Bool × AState T :=
  let ticket := q.tail
  let i := get_idx q.capacity ticket
  if q.turns.getD i 0 = get_write_turn q.capacity ticket then
    (true, { q with
      tail := ticket + 1
      vals := q.vals.set i (some v)
      turns := q.turns.set i (get_read_turn q.capacity ticket) })
  else (false, q)

/-- Sequential semantics of try_pop (non-blocking pop), symmetric to
try_emplace: one iteration of the loop, CAS succeeds, a reloaded head_ is
unchanged.  Returns the popped value or none for failure, and the
resulting state.  Reading unconstructed storage is undefined (outer
none). -/
def try_pop (q : AState T) : Option (Option T × AState T) :=
  let ticket := q.head
  let i := get_idx q.capacity ticket
  if q.turns.getD i 0 = get_read_turn q.capacity ticket then
    match q.vals.getD i none with
    | some v =>
      some (some v, { q with
        head := ticket + 1
        vals := q.vals.set i none
        turns := q.turns.set i (q.turns.getD i 0 + 1) })
    | none => none
  else some (none, q)

end ABQ

/-- A step of a sequential schedule: execute one blocking push (consuming
the next value of the producer sequence) or one blocking pop. -/
inductive SdOp : Type
  | push : SdOp
  | pop : SdOp
deriving DecidableEq

/-- Number of push steps in a schedule. -/
def nPush : List SdOp → Nat
  | [] => 0
  | SdOp.push :: ops => nPush ops + 1
  | SdOp.pop :: ops => nPush ops

/-- Number of pop steps in a schedule. -/
def nPop : List SdOp → Nat
  | [] => 0
  | SdOp.push :: ops => nPop ops
  | SdOp.pop :: ops => nPop ops + 1

namespace ABQ

/-- Run a schedule of blocking operations against an array_blocking_queue,
single producer (pushing the values of vs in order) and single consumer.
Returns the final state and the sequence of popped values, or none if some
operation does not complete. -/
def runA : AState T → List T → List SdOp → Option (AState T × List T)
  | q, _, [] => some (q, [])
  | q, vs, SdOp.push :: ops =>
    match vs with
    | [] => none
    | v :: vs2 => (emplace q v).bind fun q2 => runA q2 vs2 ops
  | q, vs, SdOp.pop :: ops =>
    (pop q).bind fun p => (runA p.1 vs ops).map fun r => (r.1, p.2 :: r.2)

/-- Run a sequence of blocking pushes. -/
def pushAll : AState T → List T → Option (AState T)
  | q, [] => some q
  | q, v :: vs => (emplace q v).bind fun q2 => pushAll q2 vs

end ABQ

namespace ABQ

/-- Number of tickets t with t < n whose slot index (t mod capacity) is i.
Defined by recursion on n; the closed form is cnt_closed below. -/
def cnt (capacity : Nat) : Nat → Nat → Nat
  | 0, _ => 0
  | n + 1, i => cnt capacity n i + (if n % capacity = i then 1 else 0)

theorem cnt_closed (capacity : Nat) (hc : 0 < capacity) :
    ∀ n i, i < capacity →
      cnt capacity n i = n / capacity + (if i < n % capacity then 1 else 0) := by
  intro n
  induction n with
  | zero => intro i _; simp [cnt]
  | succ n ih =>
    intro i hi
    have e := Nat.div_add_mod n capacity
    have hm : n % capacity < capacity := Nat.mod_lt _ hc
    rcases Nat.lt_or_ge (n % capacity + 1) capacity with h | h
    · have h1 : n + 1 = capacity * (n / capacity) + (n % capacity + 1) := by omega
      have hdiv : (n + 1) / capacity = n / capacity := by
        rw [h1, Nat.mul_add_div hc, Nat.div_eq_of_lt h, Nat.add_zero]
      have hmod : (n + 1) % capacity = n % capacity + 1 := by
        rw [h1, Nat.mul_add_mod, Nat.mod_eq_of_lt h]
      rw [cnt, ih i hi, hdiv, hmod]
      split_ifs <;> omega
    · have hceq : n % capacity + 1 = capacity := by omega
      have h2 : capacity * (n / capacity + 1) = capacity * (n / capacity) + capacity :=
        Nat.mul_succ capacity (n / capacity)
      have h1 : n + 1 = capacity * (n / capacity + 1) + 0 := by omega
      have hdiv : (n + 1) / capacity = n / capacity + 1 := by
        rw [h1, Nat.mul_add_div hc, Nat.zero_div, Nat.add_zero]
      have hmod : (n + 1) % capacity = 0 := by
        rw [h1, Nat.mul_add_mod, Nat.zero_mod]
      rw [cnt, ih i hi, hdiv, hmod]
      split_ifs <;> omega

theorem cnt_succ (capacity n i : Nat) :
    cnt capacity (n + 1) i = cnt capacity n i + (if n % capacity = i then 1 else 0) := rfl

theorem cnt_self_mod (capacity n : Nat) (hc : 0 < capacity) :
    cnt capacity n (n % capacity) = n / capacity := by
  rw [cnt_closed capacity hc n (n % capacity) (Nat.mod_lt _ hc)]
  simp

/-- With head ≤ tail = head + d and d ≤ capacity, the count of consumed
tickets mapping to the slot of ticket (head + d) equals the generation of
that ticket exactly when the window is not full.  This is the enabling
condition of a write. -/
theorem cnt_head_at_tail_idx (cap head d : Nat) (hc : 0 < cap) (hd : d ≤ cap) :
    (cnt cap head ((head + d) % cap) = (head + d) / cap) ↔ d < cap := by
  have e := Nat.div_add_mod head cap
  have hr : head % cap < cap := Nat.mod_lt _ hc
  rcases Nat.lt_or_ge (head % cap + d) cap with h | h
  · have h1 : head + d = cap * (head / cap) + (head % cap + d) := by omega
    have hdiv : (head + d) / cap = head / cap := by
      rw [h1, Nat.mul_add_div hc, Nat.div_eq_of_lt h, Nat.add_zero]
    have hmod : (head + d) % cap = head % cap + d := by
      rw [h1, Nat.mul_add_mod, Nat.mod_eq_of_lt h]
    rw [hdiv, hmod, cnt_closed cap hc head (head % cap + d) h]
    split_ifs <;> omega
  · have h2 : cap * (head / cap + 1) = cap * (head / cap) + cap :=
      Nat.mul_succ cap (head / cap)
    have h1 : head + d = cap * (head / cap + 1) + (head % cap + d - cap) := by omega
    have hlt : head % cap + d - cap < cap := by omega
    have hdiv : (head + d) / cap = head / cap + 1 := by
      rw [h1, Nat.mul_add_div hc, Nat.div_eq_of_lt hlt, Nat.add_zero]
    have hmod : (head + d) % cap = head % cap + d - cap := by
      rw [h1, Nat.mul_add_mod, Nat.mod_eq_of_lt hlt]
    rw [hdiv, hmod, cnt_closed cap hc head (head % cap + d - cap) hlt]
    split_ifs <;> omega

/-- With tail = head + d and d ≤ capacity, the count of produced tickets
mapping to the slot of ticket head exceeds the head generation by one
exactly when the queue is nonempty.  This is the enabling condition of a
read. -/
theorem cnt_tail_at_head_idx (cap head d : Nat) (hc : 0 < cap) (hd : d ≤ cap) :
    (cnt cap (head + d) (head % cap) = head / cap + 1) ↔ 0 < d := by
  have e := Nat.div_add_mod head cap
  have hr : head % cap < cap := Nat.mod_lt _ hc
  rcases Nat.lt_or_ge (head % cap + d) cap with h | h
  · have h1 : head + d = cap * (head / cap) + (head % cap + d) := by omega
    have hdiv : (head + d) / cap = head / cap := by
      rw [h1, Nat.mul_add_div hc, Nat.div_eq_of_lt h, Nat.add_zero]
    have hmod : (head + d) % cap = head % cap + d := by
      rw [h1, Nat.mul_add_mod, Nat.mod_eq_of_lt h]
    rw [cnt_closed cap hc (head + d) (head % cap) hr, hdiv]
    split_ifs <;> omega
  · have h2 : cap * (head / cap + 1) = cap * (head / cap) + cap :=
      Nat.mul_succ cap (head / cap)
    have h1 : head + d = cap * (head / cap + 1) + (head % cap + d - cap) := by omega
    have hlt : head % cap + d - cap < cap := by omega
    have hdiv : (head + d) / cap = head / cap + 1 := by
      rw [h1, Nat.mul_add_div hc, Nat.div_eq_of_lt hlt, Nat.add_zero]
    have hmod : (head + d) % cap = head % cap + d - cap := by
      rw [h1, Nat.mul_add_mod, Nat.mod_eq_of_lt hlt]
    rw [cnt_closed cap hc (head + d) (head % cap) hr, hdiv]
    split_ifs <;> omega

/-- Each slot is written at most once more than it is read while the
window tail - head stays within the capacity. -/
theorem cnt_window_bounds (cap head d i : Nat) (hc : 0 < cap) (hd : d ≤ cap)
    (hi : i < cap) :
    cnt cap head i ≤ cnt cap (head + d) i ∧
      cnt cap (head + d) i ≤ cnt cap head i + 1 := by
  have e := Nat.div_add_mod head cap
  have hr : head % cap < cap := Nat.mod_lt _ hc
  rcases Nat.lt_or_ge (head % cap + d) cap with h | h
  · have h1 : head + d = cap * (head / cap) + (head % cap + d) := by omega
    have hdiv : (head + d) / cap = head / cap := by
      rw [h1, Nat.mul_add_div hc, Nat.div_eq_of_lt h, Nat.add_zero]
    have hmod : (head + d) % cap = head % cap + d := by
      rw [h1, Nat.mul_add_mod, Nat.mod_eq_of_lt h]
    rw [cnt_closed cap hc head i hi, cnt_closed cap hc (head + d) i hi, hdiv, hmod]
    split_ifs <;> omega
  · have h2 : cap * (head / cap + 1) = cap * (head / cap) + cap :=
      Nat.mul_succ cap (head / cap)
    have h1 : head + d = cap * (head / cap + 1) + (head % cap + d - cap) := by omega
    have hlt : head % cap + d - cap < cap := by omega
    have hdiv : (head + d) / cap = head / cap + 1 := by
      rw [h1, Nat.mul_add_div hc, Nat.div_eq_of_lt hlt, Nat.add_zero]
    have hmod : (head + d) % cap = head % cap + d - cap := by
      rw [h1, Nat.mul_add_mod, Nat.mod_eq_of_lt hlt]
    rw [cnt_closed cap hc head i hi, cnt_closed cap hc (head + d) i hi, hdiv, hmod]
    split_ifs <;> omega

/-- Two distinct offsets less than one capacity apart land in distinct
slots. -/
theorem window_mod_ne (cap head a b : Nat) (hab : a < b) (hb : b - a < cap) :
    (head + a) % cap ≠ (head + b) % cap := by
  intro h
  have hmod : (head + a) ≡ (head + b) [MOD cap] := h
  have hdvd : cap ∣ (head + b) - (head + a) :=
    (Nat.modEq_iff_dvd' (by omega)).mp hmod
  have h2 : (head + b) - (head + a) = b - a := by omega
  rw [h2] at hdvd
  have := Nat.le_of_dvd (by omega) hdvd
  omega

theorem get_idx_eq_mod (k t : Nat) : get_idx (2 ^ k) t = t % 2 ^ k := by
  unfold get_idx
  exact Nat.and_pow_two_sub_one_eq_mod t k

end ABQ

theorem getD_set_self {α : Type} (l : List α) (i : Nat) (x d : α) (h : i < l.length) :
    (l.set i x).getD i d = x := by
  induction l generalizing i with
  | nil => simp at h
  | cons a l ih =>
    cases i with
    | zero => rfl
    | succ n =>
      simp only [List.set, List.getD, List.length_cons] at *
      exact ih n (by omega)

theorem getD_set_ne {α : Type} (l : List α) {i j : Nat} (x : α) (d : α) (h : i ≠ j) :
    (l.set i x).getD j d = l.getD j d := by
  induction l generalizing i j with
  | nil => cases i <;> rfl
  | cons a l ih =>
    cases i with
    | zero =>
      cases j with
      | zero => exact absurd rfl h
      | succ m => rfl
    | succ n =>
      cases j with
      | zero => rfl
      | succ m =>
        simp only [List.set, List.getD] at *
        exact ih (by omega)

theorem getD_append_lt {α : Type} (l l2 : List α) (i : Nat) (d : α) (h : i < l.length) :
    (l ++ l2).getD i d = l.getD i d := by
  induction l generalizing i with
  | nil => simp at h
  | cons a l ih =>
    cases i with
    | zero => rfl
    | succ n =>
      simp only [List.cons_append, List.getD, List.length_cons] at *
      exact ih n (by omega)

theorem getD_append_len {α : Type} (l : List α) (c d : α) :
    (l ++ [c]).getD l.length d = c := by
  induction l with
  | nil => rfl
  | cons a l ih => simp [ih]

theorem getD_replicate {α : Type} (n : Nat) (a d : α) (i : Nat) (h : i < n) :
    (List.replicate n a).getD i d = a := by
  induction n generalizing i with
  | zero => omega
  | succ m ih =>
    cases i with
    | zero => rfl
    | succ j =>
      simp only [List.replicate, List.getD]
      exact ih j (by omega)

namespace ABQ

/-- Reachable-state invariant of the array_blocking_queue relating a
concrete state q to its abstract FIFO content l: the capacity is a power
of two greater than one, tickets satisfy head ≤ tail ≤ head + capacity,
every slot turn equals the number of produced plus the number of consumed
tickets mapping to it, a slot storage holds a value exactly when it has
been written once more than read, and the pending values, read in ticket
order from head, are l. -/
structure AInv (k : Nat) (q : AState T) (l : List T) : Prop where
  hcap : q.capacity = 2 ^ k
  hk : 1 ≤ k
  hlen_t : q.turns.length = q.capacity
  hlen_v : q.vals.length = q.capacity
  hht : q.head ≤ q.tail
  hwin : q.tail ≤ q.head + q.capacity
  hturn : ∀ i, i < q.capacity →
    q.turns.getD i 0 = cnt q.capacity q.tail i + cnt q.capacity q.head i
  hocc : ∀ i, i < q.capacity →
    ((q.vals.getD i none).isSome = true ↔
      cnt q.capacity q.tail i = cnt q.capacity q.head i + 1)
  hlen_l : l.length = q.tail - q.head
  hvals : ∀ j, j < q.tail - q.head →
    q.vals.getD ((q.head + j) % q.capacity) none = l[j]?

theorem AInv.cap_pos {T : Type} {k : Nat} {q : AState T} {l : List T}
    (h : AInv k q l) : 0 < q.capacity :=
  h.hcap ▸ Nat.two_pow_pos k

theorem get_idx_eq_mod_of {T : Type} {k : Nat} {q : AState T} {l : List T}
    (h : AInv k q l) (t : Nat) : get_idx q.capacity t = t % q.capacity := by
  rw [h.hcap]
  exact get_idx_eq_mod k t

theorem initA_inv (T : Type) (k : Nat) (hk : 1 ≤ k) :
    AInv k (initA T (2 ^ k)) [] := by
  have hc : 0 < 2 ^ k := Nat.two_pow_pos k
  refine ⟨rfl, hk, ?_, ?_, ?_, ?_, ?_, ?_, ?_, ?_⟩
  · simp [initA]
  · simp [initA]
  · exact Nat.le_refl 0
  · simp [initA]
  · intro i hi
    have : (initA T (2 ^ k)).turns.getD i 0 = 0 := getD_replicate _ _ _ _ hi
    rw [this]
    rfl
  · intro i hi
    have : (initA T (2 ^ k)).vals.getD i none = none := getD_replicate _ _ _ _ hi
    rw [this]
    simp [cnt]
  · rfl
  · intro j hj
    simp [initA] at hj

/-- The spin condition of the push family holds in a reachable state
exactly when the queue is not full. -/
theorem emplace_cond_iff {T : Type} {k : Nat} {q : AState T} {l : List T}
    (h : AInv k q l) :
    (q.turns.getD (get_idx q.capacity q.tail) 0 = get_write_turn q.capacity q.tail) ↔
      l.length < q.capacity := by
  have hc : 0 < q.capacity := h.cap_pos
  obtain ⟨d, hd⟩ : ∃ d, q.tail = q.head + d := ⟨q.tail - q.head, by have := h.hht; omega⟩
  have hdcap : d ≤ q.capacity := by have := h.hwin; omega
  have hi : q.tail % q.capacity < q.capacity := Nat.mod_lt _ hc
  have ht := h.hturn (q.tail % q.capacity) hi
  have hself : cnt q.capacity q.tail (q.tail % q.capacity) = q.tail / q.capacity :=
    cnt_self_mod _ _ hc
  have henable := cnt_head_at_tail_idx q.capacity q.head d hc hdcap
  have hlenl := h.hlen_l
  rw [get_idx_eq_mod_of h, ht, get_write_turn, hself]
  rw [hd]
  constructor
  · intro hh
    have h1 : cnt q.capacity q.head ((q.head + d) % q.capacity) =
        (q.head + d) / q.capacity := by omega
    have h2 := henable.mp h1
    omega
  · intro hh
    have hdlt : d < q.capacity := by omega
    have h2 := henable.mpr hdlt
    omega

/-- The spin condition of the pop family holds in a reachable state
exactly when the queue is not empty. -/
theorem pop_cond_iff {T : Type} {k : Nat} {q : AState T} {l : List T}
    (h : AInv k q l) :
    (q.turns.getD (get_idx q.capacity q.head) 0 = get_read_turn q.capacity q.head) ↔
      l ≠ [] := by
  have hc : 0 < q.capacity := h.cap_pos
  obtain ⟨d, hd⟩ : ∃ d, q.tail = q.head + d := ⟨q.tail - q.head, by have := h.hht; omega⟩
  have hdcap : d ≤ q.capacity := by have := h.hwin; omega
  have hi : q.head % q.capacity < q.capacity := Nat.mod_lt _ hc
  have ht := h.hturn (q.head % q.capacity) hi
  have hself : cnt q.capacity q.head (q.head % q.capacity) = q.head / q.capacity :=
    cnt_self_mod _ _ hc
  have henable := cnt_tail_at_head_idx q.capacity q.head d hc hdcap
  have hlenl := h.hlen_l
  rw [get_idx_eq_mod_of h, ht, get_read_turn, hself]
  rw [hd]
  constructor
  · intro hh
    have h1 : cnt q.capacity (q.head + d) (q.head % q.capacity) =
        q.head / q.capacity + 1 := by omega
    have h2 := henable.mp h1
    refine List.length_pos.mp ?_
    omega
  · intro hh
    have h0 : 0 < l.length := List.length_pos.mpr hh
    have h2 := henable.mpr (by omega)
    omega

end ABQ

namespace ABQ

/-- A completing emplace appends its value to the abstract content. -/
theorem emplace_some_inv {T : Type} {k : Nat} {q : AState T} {l : List T}
    {v : T} {q2 : AState T} (h : AInv k q l) (he : emplace q v = some q2) :
    AInv k q2 (l ++ [v]) := by
  have hc : 0 < q.capacity := h.cap_pos
  by_cases hcond :
      q.turns.getD (get_idx q.capacity q.tail) 0 = get_write_turn q.capacity q.tail
  case neg =>
    simp only [emplace] at he
    rw [if_neg hcond] at he
    exact absurd he (by simp)
  case pos =>
  simp only [emplace] at he
  rw [if_pos hcond] at he
  injection he with he
  subst he
  have hlen : l.length < q.capacity := (emplace_cond_iff h).mp hcond
  obtain ⟨d, hd⟩ : ∃ d, q.tail = q.head + d := ⟨q.tail - q.head, by have := h.hht; omega⟩
  have hdcap : d ≤ q.capacity := by have := h.hwin; omega
  have hlenl := h.hlen_l
  have hdlt : d < q.capacity := by omega
  have hi : q.tail % q.capacity < q.capacity := Nat.mod_lt _ hc
  have hcnttail : cnt q.capacity q.tail (q.tail % q.capacity) = q.tail / q.capacity :=
    cnt_self_mod _ _ hc
  have hcnthead : cnt q.capacity q.head (q.tail % q.capacity) = q.tail / q.capacity := by
    have hh := cnt_head_at_tail_idx q.capacity q.head d hc hdcap
    rw [← hd] at hh
    exact hh.mpr hdlt
  have hidx := get_idx_eq_mod_of h q.tail
  refine ⟨h.hcap, h.hk, ?_, ?_, ?_, ?_, ?_, ?_, ?_, ?_⟩ <;> dsimp only
  · simp only [List.length_set]
    exact h.hlen_t
  · simp only [List.length_set]
    exact h.hlen_v
  · have := h.hht
    omega
  · omega
  · intro i2 hi2
    by_cases hii : i2 = q.tail % q.capacity
    · subst hii
      rw [hidx, getD_set_self _ _ _ _ (by rw [h.hlen_t]; exact hi)]
      rw [cnt_succ, if_pos rfl, get_read_turn, hcnttail, hcnthead]
      omega
    · rw [hidx, getD_set_ne _ _ _ (Ne.symm hii)]
      rw [cnt_succ, if_neg (Ne.symm hii), Nat.add_zero]
      exact h.hturn i2 hi2
  · intro i2 hi2
    by_cases hii : i2 = q.tail % q.capacity
    · subst hii
      rw [hidx, getD_set_self _ _ _ _ (by rw [h.hlen_v]; exact hi)]
      rw [cnt_succ, if_pos rfl, hcnttail, hcnthead]
      simp
    · rw [hidx, getD_set_ne _ _ _ (Ne.symm hii)]
      rw [cnt_succ, if_neg (Ne.symm hii), Nat.add_zero]
      exact h.hocc i2 hi2
  · simp only [List.length_append, List.length_singleton]
    omega
  · intro j hj
    by_cases hjd : j = d
    · subst hjd
      have hidx2 : (q.head + j) % q.capacity = q.tail % q.capacity := by rw [hd]
      rw [hidx, hidx2, getD_set_self _ _ _ _ (by rw [h.hlen_v]; exact hi)]
      have hjl : j = l.length := by omega
      rw [hjl]
      simp
    · have hjlt : j < d := by omega
      have hne : (q.head + j) % q.capacity ≠ (q.head + d) % q.capacity :=
        window_mod_ne q.capacity q.head j d hjlt (by omega)
      have hne2 : get_idx q.capacity q.tail ≠ (q.head + j) % q.capacity := by
        rw [hidx, hd]
        exact Ne.symm hne
      rw [getD_set_ne _ _ _ hne2]
      have hold := h.hvals j (by omega)
      rw [hold]
      exact (List.getElem?_append_left (by omega)).symm

/-- A completing pop removes and returns the oldest abstract value. -/
theorem pop_some_inv {T : Type} {k : Nat} {q : AState T} {l : List T}
    {q2 : AState T} {v : T} (h : AInv k q l) (hp : pop q = some (q2, v)) :
    l[0]? = some v ∧ AInv k q2 l.tail := by
  have hc : 0 < q.capacity := h.cap_pos
  by_cases hcond :
      q.turns.getD (get_idx q.capacity q.head) 0 = get_read_turn q.capacity q.head
  case neg =>
    simp only [pop] at hp
    rw [if_neg hcond] at hp
    exact absurd hp (by simp)
  case pos =>
  have hnil : l ≠ [] := (pop_cond_iff h).mp hcond
  obtain ⟨d, hd⟩ : ∃ d, q.tail = q.head + d := ⟨q.tail - q.head, by have := h.hht; omega⟩
  have hdcap : d ≤ q.capacity := by have := h.hwin; omega
  have hlenl := h.hlen_l
  have hdpos : 0 < d := by
    have := List.length_pos.mpr hnil
    omega
  have hi : q.head % q.capacity < q.capacity := Nat.mod_lt _ hc
  have hcnthead : cnt q.capacity q.head (q.head % q.capacity) = q.head / q.capacity :=
    cnt_self_mod _ _ hc
  have hcnttail : cnt q.capacity q.tail (q.head % q.capacity) = q.head / q.capacity + 1 := by
    have hh := cnt_tail_at_head_idx q.capacity q.head d hc hdcap
    rw [← hd] at hh
    exact hh.mpr hdpos
  have hbounds := cnt_window_bounds q.capacity q.head d (q.head % q.capacity) hc hdcap hi
  have hidx := get_idx_eq_mod_of h q.head
  have hocc0 := h.hocc (q.head % q.capacity) hi
  have hsome : (q.vals.getD (q.head % q.capacity) none).isSome = true :=
    hocc0.mpr (by omega)
  obtain ⟨w, hw⟩ : ∃ w, q.vals.getD (q.head % q.capacity) none = some w :=
    Option.isSome_iff_exists.mp hsome
  have hval0 := h.hvals 0 (by omega)
  rw [Nat.add_zero, hw] at hval0
  simp only [pop] at hp
  rw [if_pos hcond, hidx, hw] at hp
  simp only [Option.some.injEq, Prod.mk.injEq] at hp
  obtain ⟨hq2, hv⟩ := hp
  subst hq2
  subst hv
  constructor
  · exact hval0.symm
  refine ⟨h.hcap, h.hk, ?_, ?_, ?_, ?_, ?_, ?_, ?_, ?_⟩ <;> dsimp only
  · simp only [List.length_set]
    exact h.hlen_t
  · simp only [List.length_set]
    exact h.hlen_v
  · omega
  · omega
  · intro i2 hi2
    by_cases hii : i2 = q.head % q.capacity
    · subst hii
      rw [getD_set_self _ _ _ _ (by rw [h.hlen_t]; exact hi)]
      rw [h.hturn _ hi, cnt_succ, if_pos rfl]
      omega
    · rw [getD_set_ne _ _ _ (Ne.symm hii)]
      rw [cnt_succ, if_neg (Ne.symm hii), Nat.add_zero]
      exact h.hturn i2 hi2
  · intro i2 hi2
    by_cases hii : i2 = q.head % q.capacity
    · subst hii
      rw [getD_set_self _ _ _ _ (by rw [h.hlen_v]; exact hi)]
      simp only [Option.isSome_none, Bool.false_eq_true, false_iff]
      rw [cnt_succ, if_pos rfl]
      omega
    · rw [getD_set_ne _ _ _ (Ne.symm hii)]
      rw [cnt_succ, if_neg (Ne.symm hii), Nat.add_zero]
      exact h.hocc i2 hi2
  · rw [List.length_tail]
    omega
  · intro j hj
    have hadd : q.head + 1 + j = q.head + (1 + j) := by omega
    have hne := window_mod_ne q.capacity q.head 0 (1 + j) (by omega) (by omega)
    rw [Nat.add_zero] at hne
    rw [getD_set_ne _ _ _ (by rw [hadd]; exact hne)]
    have hold := h.hvals (1 + j) (by omega)
    rw [hadd, hold]
    have h1j : 1 + j = j + 1 := by omega
    rw [h1j, ← List.getElem?_tail l j]

end ABQ

namespace ABQ

/-- In a reachable full state, try_emplace fails and leaves the queue
unchanged. -/
theorem try_emplace_full {T : Type} {k : Nat} {q : AState T} {l : List T}
    (h : AInv k q l) (hfull : ¬ l.length < q.capacity) (v : T) :
    try_emplace q v = (false, q) := by
  have hcond := (emplace_cond_iff h).not.mpr hfull
  simp only [try_emplace]
  rw [if_neg hcond]

/-- In a reachable non-full state, try_emplace succeeds. -/
theorem try_emplace_not_full {T : Type} {k : Nat} {q : AState T} {l : List T}
    (h : AInv k q l) (hroom : l.length < q.capacity) (v : T) :
    (try_emplace q v).1 = true := by
  have hcond := (emplace_cond_iff h).mpr hroom
  simp only [try_emplace]
  rw [if_pos hcond]

/-- In a reachable empty state, try_pop reports no value, does not get
stuck, and leaves the queue unchanged. -/
theorem try_pop_empty {T : Type} {k : Nat} {q : AState T} {l : List T}
    (h : AInv k q l) (hempty : l = []) :
    try_pop q = some (none, q) := by
  have hcond : ¬ (q.turns.getD (get_idx q.capacity q.head) 0 =
      get_read_turn q.capacity q.head) := by
    rw [pop_cond_iff h]
    simp [hempty]
  simp only [try_pop]
  rw [if_neg hcond]

/-- A schedule with as many pops as initial content plus pushes, whose
operations all complete, pops exactly the initial content followed by
the pushed values, in order. -/
theorem runA_fifo {T : Type} {k : Nat} :
    ∀ (ops : List SdOp) (q : AState T) (l vs : List T) (qf : AState T) (out : List T),
      AInv k q l → runA q vs ops = some (qf, out) → nPush ops = vs.length →
      nPop ops = l.length + vs.length → out = l ++ vs := by
  intro ops
  induction ops with
  | nil =>
    intro q l vs qf out h hrun hpush hpop
    simp only [runA, Option.some.injEq, Prod.mk.injEq] at hrun
    simp only [nPush] at hpush
    simp only [nPop] at hpop
    have hvs : vs = [] := List.eq_nil_of_length_eq_zero hpush.symm
    have hl : l = [] := List.eq_nil_of_length_eq_zero (by omega)
    simp [hvs, hl, ← hrun.2]
  | cons op ops ih =>
    intro q l vs qf out h hrun hpush hpop
    cases op with
    | push =>
      simp only [nPush] at hpush
      simp only [nPop] at hpop
      cases vs with
      | nil => simp at hpush
      | cons v vs2 =>
        simp only [runA] at hrun
        cases he : emplace q v with
        | none => rw [he] at hrun; simp at hrun
        | some q2 =>
          rw [he] at hrun
          rw [Option.some_bind] at hrun
          have h2 := emplace_some_inv h he
          have := ih q2 (l ++ [v]) vs2 qf out h2 hrun (by simpa using hpush)
            (by simp only [List.length_append, List.length_cons,
              List.length_nil] at hpop ⊢; omega)
          simpa using this
    | pop =>
      simp only [nPush] at hpush
      simp only [nPop] at hpop
      simp only [runA] at hrun
      cases hp : pop q with
      | none => rw [hp] at hrun; simp at hrun
      | some p =>
        obtain ⟨q2, w⟩ := p
        rw [hp] at hrun
        rw [Option.some_bind] at hrun
        cases hr : runA q2 vs ops with
        | none => rw [hr] at hrun; simp at hrun
        | some r =>
          obtain ⟨qf2, out2⟩ := r
          rw [hr, Option.map_some'] at hrun
          injection hrun with hrun
          injection hrun with hq hout
          dsimp only at hq hout
          obtain ⟨hhead, h2⟩ := pop_some_inv h hp
          cases l with
          | nil => simp at hhead
          | cons x ls =>
            simp only [List.getElem?_cons_zero, Option.some.injEq] at hhead
            have := ih q2 ls vs qf2 out2 (by simpa using h2) hr hpush
              (by simp only [List.length_cons] at hpop; omega)
            rw [← hout, this, hhead]
            simp
/-- All operations of a run from a reachable state land in a reachable
state. -/
theorem runA_reach {T : Type} {k : Nat} :
    ∀ (ops : List SdOp) (q : AState T) (l vs : List T) (qf : AState T) (out : List T),
      AInv k q l → runA q vs ops = some (qf, out) → ∃ lf, AInv k qf lf := by
  intro ops
  induction ops with
  | nil =>
    intro q l vs qf out h hrun
    simp only [runA, Option.some.injEq, Prod.mk.injEq] at hrun
    exact ⟨l, hrun.1 ▸ h⟩
  | cons op ops ih =>
    intro q l vs qf out h hrun
    cases op with
    | push =>
      cases vs with
      | nil => simp [runA] at hrun
      | cons v vs2 =>
        simp only [runA] at hrun
        cases he : emplace q v with
        | none => rw [he] at hrun; simp at hrun
        | some q2 =>
          rw [he] at hrun
          rw [Option.some_bind] at hrun
          exact ih q2 (l ++ [v]) vs2 qf out (emplace_some_inv h he) hrun
    | pop =>
      simp only [runA] at hrun
      cases hp : pop q with
      | none => rw [hp] at hrun; simp at hrun
      | some p =>
        obtain ⟨q2, w⟩ := p
        rw [hp] at hrun
        rw [Option.some_bind] at hrun
        cases hr : runA q2 vs ops with
        | none => rw [hr] at hrun; simp at hrun
        | some r =>
          obtain ⟨qf2, out2⟩ := r
          rw [hr, Option.map_some'] at hrun
          injection hrun with hrun
          injection hrun with hq hout
          dsimp only at hq
          obtain ⟨hhead, h2⟩ := pop_some_inv h hp
          exact hq ▸ ih q2 l.tail vs qf2 out2 h2 hr

/-- Pushing a list of values one by one extends the abstract content. -/
theorem pushAll_some_inv {T : Type} {k : Nat} :
    ∀ (vs : List T) (q : AState T) (l : List T) (qf : AState T),
      AInv k q l → pushAll q vs = some qf → AInv k qf (l ++ vs) := by
  intro vs
  induction vs with
  | nil =>
    intro q l qf h hrun
    simp only [pushAll, Option.some.injEq] at hrun
    simpa [← hrun] using h
  | cons v vs ih =>
    intro q l qf h hrun
    simp only [pushAll] at hrun
    cases he : emplace q v with
    | none => rw [he] at hrun; simp at hrun
    | some q2 =>
      rw [he] at hrun
      rw [Option.some_bind] at hrun
      have := ih q2 (l ++ [v]) qf (emplace_some_inv h he) hrun
      simpa using this

end ABQ

namespace LBQ

/-- Contents of the raw element storage of a node: uninitialized (after
memset or before construction), a live constructed value (after placement
new), or a moved-from remnant (after the value was moved out; the
destructor of the element was NOT invoked, which would take the cell back
to uninit). -/
inductive CellVal (T : Type) : Type
  | uninit : CellVal T
  | live : T → CellVal T
  | moved : CellVal T
deriving DecidableEq

/-- A node of linked_blocking_queue: element storage plus the next raw
pointer (none models nullptr). -/
structure LNode (T : Type) where
  val : CellVal T
  next : Option Nat
deriving DecidableEq

/-- State of a linked_blocking_queue.  The heap is the list of node cells
ever obtained from the allocator; a pointer is an index into it, and the
allocator hands out fresh cells at the end (memory is only returned to
the system in the destructor, so the heap never shrinks during
operations).  front and back are the pointers of the two ends, freeList
the head pointer of the lock-free free list. -/
structure LQueue (T : Type) where
  heap : List (LNode T)
  front : Option Nat
  back : Option Nat
  freeList : Option Nat
deriving DecidableEq

/-- Reading a node cell through a pointer (lookup with a dummy default;
operations guard the bound explicitly where the source dereferences). -/
def readN (q : LQueue T) (a : Nat) : LNode T :=
  q.heap.getD a ⟨CellVal.uninit, none⟩

/-- alloc_node with allocation assumed to succeed: pop the free list head
if there is one (alloc_from_free_list), otherwise take a fresh cell from
the allocator (alloc_from_allocator); in both cases memset zeroes the
node, leaving uninitialized storage and a null next pointer. -/
def alloc_node (q : LQueue T) : Nat × LQueue T :=
  match q.freeList with
  | some f =>
    (f, { q with
      freeList := (readN q f).next
      heap := q.heap.set f ⟨CellVal.uninit, none⟩ })
  | none =>
    (q.heap.length, { q with heap := q.heap ++ [⟨CellVal.uninit, none⟩] })

/-- The queue right after construction: the constructor calls alloc_node
once (fresh cell 0) and stores the placeholder into both ends. -/
def initL (T : Type) : LQueue T :=
  { heap := [⟨CellVal.uninit, none⟩]
    front := some 0
    back := some 0
    freeList := none }

/-- insert (the push path): obtain a node outside the critical section,
then under the back lock read the current placeholder tail, construct the
value into it with placement new (node ctor sets val and a null next),
link the new placeholder (tail->next_ = new_node) and publish it as back.
Dereferencing a null or dangling back pointer is undefined (none). -/
def insert (q : LQueue T) (v : T) : Option (LQueue T) :=
  let pq := alloc_node q
  match pq.2.back with
  | none => none
  | some tail =>
    if tail < pq.2.heap.length then
      some { pq.2 with
        heap := pq.2.heap.set tail ⟨CellVal.live v, some pq.1⟩
        back := some pq.1 }
    else none

/-- empty(): an unguarded dereference of the front pointer, testing
whether its next pointer is null.  A null front pointer is undefined
behavior (none). -/
def emptyOp (q : LQueue T) : Option Bool :=
  match q.front with
  | none => none
  | some f => if f < q.heap.length then some (readN q f).next.isNone else none

/-- pop(std::unique_lock), the common pop path, with an explicit flag
telling whether the copy/move construction of the return value throws.
In source order: load the front pointer, construct the return value from
the stored element (T e = std::move(old->val_); on a throw the exception
escapes before any queue field was modified, so the error carries the
queue unchanged), store old->next_ as the new front, then free_node(old):
link the node to the previous free list head and publish it as the new
head.  Moving out leaves a moved-from remnant in the cell; the element
destructor is not invoked by free_node.  Reading a cell that holds no
live value, or dereferencing null, is undefined (outer none). -/
def pop_impl (q : LQueue T) (ctorThrows : Bool) :
    Option (Except (LQueue T) (LQueue T × T)) :=
  match q.front with
  | none => none
  | some old =>
    if old < q.heap.length then
      match (readN q old).val with
      | CellVal.live v =>
        if ctorThrows then some (Except.error q)
        else
          some (Except.ok ({ q with
            heap := (q.heap.set old ⟨CellVal.moved, (readN q old).next⟩).set old
              ⟨CellVal.moved, q.freeList⟩
            front := (readN q old).next
            freeList := some old }, v))
      | CellVal.uninit => none
      | CellVal.moved => none
    else none

/-- try_pop: under the front lock, return no value immediately if the
queue is empty, otherwise run the common pop path. -/
def try_pop (q : LQueue T) (ctorThrows : Bool) :
    Option (Except (LQueue T) (Option T × LQueue T)) :=
  match emptyOp q with
  | none => none
  | some true => some (Except.ok (none, q))
  | some false =>
    match pop_impl q ctorThrows with
    | none => none
    | some (Except.error qe) => some (Except.error qe)
    | some (Except.ok (q2, v)) => some (Except.ok (some v, q2))

/-- Blocking pop: wait on the condition variable until the queue is
non-empty, then run the common pop path.  In a sequential execution no
pusher ever signals, so a wait on an empty queue never returns (none). -/
def pop (q : LQueue T) (ctorThrows : Bool) :
    Option (Except (LQueue T) (LQueue T × T)) :=
  match emptyOp q with
  | none => none
  | some true => none
  | some false => pop_impl q ctorThrows

/-- Run a schedule of blocking push and pop operations against a
linked_blocking_queue (element construction not throwing). -/
def runL : LQueue T → List T → List SdOp → Option (LQueue T × List T)
  | q, _, [] => some (q, [])
  | q, vs, SdOp.push :: ops =>
    match vs with
    | [] => none
    | v :: vs2 => (insert q v).bind fun q2 => runL q2 vs2 ops
  | q, vs, SdOp.pop :: ops =>
    match pop q false with
    | some (Except.ok (q2, v)) =>
      (runL q2 vs ops).map fun r => (r.1, v :: r.2)
    | _ => none

end LBQ

namespace LBQ

/-- seg h a ps b: starting at pointer a, the cells listed in ps (address
paired with the live value it holds) form a chain linked by next pointers
ending at pointer b (b itself not included). -/
def seg (h : List (LNode T)) : Nat → List (Nat × T) → Nat → Prop
  | a, [], b => a = b
  | a, (x, v) :: ps, b =>
    x = a ∧ a < h.length ∧ (h.getD a ⟨CellVal.uninit, none⟩).val = CellVal.live v ∧
      ∃ n, (h.getD a ⟨CellVal.uninit, none⟩).next = some n ∧ seg h n ps b

/-- flist h p fs: fs is the list of cell addresses of the free list
starting at head pointer p and chained by next pointers down to null. -/
def flist (h : List (LNode T)) : Option Nat → List Nat → Prop
  | none, [] => True
  | none, _ :: _ => False
  | some _, [] => False
  | some x, y :: ys => y = x ∧ x < h.length ∧ flist h (h.getD x ⟨CellVal.uninit, none⟩).next ys

/-- Reachable-state invariant of the linked_blocking_queue with abstract
FIFO content l: both end pointers are non-null, the live chain runs from
front to the placeholder at back carrying exactly the values l, the
placeholder node is an uninitialized cell with a null next pointer, the
free list is a well formed chain, and no cell is owned twice (live chain,
placeholder and free list addresses are pairwise distinct). -/
def LInv (q : LQueue T) (l : List T) : Prop :=
  ∃ f b ps fs,
    q.front = some f ∧ q.back = some b ∧
    seg q.heap f ps b ∧
    b < q.heap.length ∧ q.heap.getD b ⟨CellVal.uninit, none⟩ = ⟨CellVal.uninit, none⟩ ∧
    flist q.heap q.freeList fs ∧
    (ps.map Prod.fst ++ b :: fs).Nodup ∧
    l = ps.map Prod.snd

theorem seg_addr_lt {T : Type} (h : List (LNode T)) :
    ∀ (ps : List (Nat × T)) (a b : Nat), seg h a ps b →
      ∀ x ∈ ps.map Prod.fst, x < h.length := by
  intro ps
  induction ps with
  | nil => intro a b _ x hx; simp at hx
  | cons p ps ih =>
    intro a b hseg x hx
    obtain ⟨x0, v0⟩ := p
    obtain ⟨hx0, ha, hval, n, hnext, hrest⟩ := hseg
    simp only [List.map_cons, List.mem_cons] at hx
    rcases hx with hx | hx
    · subst hx; subst hx0; exact ha
    · exact ih n b hrest x hx

theorem flist_addr_lt {T : Type} (h : List (LNode T)) :
    ∀ (fs : List Nat) (p : Option Nat), flist h p fs → ∀ x ∈ fs, x < h.length := by
  intro fs
  induction fs with
  | nil => intro p _ x hx; simp at hx
  | cons y ys ih =>
    intro p hfl x hx
    cases p with
    | none => exact absurd hfl (by simp [flist])
    | some z =>
      obtain ⟨hy, hz, hrest⟩ := hfl
      simp only [List.mem_cons] at hx
      rcases hx with hx | hx
      · subst hx; subst hy; exact hz
      · exact ih _ hrest x hx

/-- A heap update outside the footprint of a chain segment preserves it. -/
theorem seg_set_outside {T : Type} (h : List (LNode T)) (j : Nat) (nd : LNode T) :
    ∀ (ps : List (Nat × T)) (a b : Nat), seg h a ps b → j ∉ ps.map Prod.fst →
      seg (h.set j nd) a ps b := by
  intro ps
  induction ps with
  | nil => intro a b hseg _; exact hseg
  | cons p ps ih =>
    intro a b hseg hj
    obtain ⟨x0, v0⟩ := p
    obtain ⟨hx0, ha, hval, n, hnext, hrest⟩ := hseg
    simp only [List.map_cons, List.mem_cons] at hj
    push_neg at hj
    obtain ⟨hj1, hj2⟩ := hj
    have hja : j ≠ a := by rw [← hx0]; exact hj1
    refine ⟨hx0, by simpa using ha, ?_, n, ?_, ih n b hrest hj2⟩
    · rw [getD_set_ne _ _ _ hja]; exact hval
    · rw [getD_set_ne _ _ _ hja]; exact hnext

/-- A heap update outside the footprint of the free list preserves it. -/
theorem flist_set_outside {T : Type} (h : List (LNode T)) (j : Nat) (nd : LNode T) :
    ∀ (fs : List Nat) (p : Option Nat), flist h p fs → j ∉ fs →
      flist (h.set j nd) p fs := by
  intro fs
  induction fs with
  | nil =>
    intro p hfl _
    cases p with
    | none => trivial
    | some z => exact absurd hfl (by simp [flist])
  | cons y ys ih =>
    intro p hfl hj
    cases p with
    | none => exact absurd hfl (by simp [flist])
    | some z =>
      obtain ⟨hy, hz, hrest⟩ := hfl
      simp only [List.mem_cons] at hj
      push_neg at hj
      obtain ⟨hj1, hj2⟩ := hj
      have hjz : j ≠ z := by rw [← hy]; exact hj1
      refine ⟨hy, by simpa using hz, ?_⟩
      rw [getD_set_ne _ _ _ hjz]
      exact ih _ hrest hj2

/-- Growing the heap with a fresh cell preserves a chain segment. -/
theorem seg_append {T : Type} (h : List (LNode T)) (c : LNode T) :
    ∀ (ps : List (Nat × T)) (a b : Nat), seg h a ps b → seg (h ++ [c]) a ps b := by
  intro ps
  induction ps with
  | nil => intro a b hseg; exact hseg
  | cons p ps ih =>
    intro a b hseg
    obtain ⟨x0, v0⟩ := p
    obtain ⟨hx0, ha, hval, n, hnext, hrest⟩ := hseg
    refine ⟨hx0, by simp; omega, ?_, n, ?_, ih n b hrest⟩
    · rw [getD_append_lt _ _ _ _ ha]; exact hval
    · rw [getD_append_lt _ _ _ _ ha]; exact hnext

/-- Growing the heap with a fresh cell preserves the free list. -/
theorem flist_append {T : Type} (h : List (LNode T)) (c : LNode T) :
    ∀ (fs : List Nat) (p : Option Nat), flist h p fs → flist (h ++ [c]) p fs := by
  intro fs
  induction fs with
  | nil =>
    intro p hfl
    cases p with
    | none => trivial
    | some z => exact absurd hfl (by simp [flist])
  | cons y ys ih =>
    intro p hfl
    cases p with
    | none => exact absurd hfl (by simp [flist])
    | some z =>
      obtain ⟨hy, hz, hrest⟩ := hfl
      refine ⟨hy, by simp; omega, ?_⟩
      rw [getD_append_lt _ _ _ _ hz]
      exact ih _ hrest

/-- Extending a chain segment by one cell at its endpoint. -/
theorem seg_snoc {T : Type} (h : List (LNode T)) (v : T) (n : Nat) :
    ∀ (ps : List (Nat × T)) (a b : Nat), seg h a ps b →
      b < h.length → (h.getD b ⟨CellVal.uninit, none⟩).val = CellVal.live v →
      (h.getD b ⟨CellVal.uninit, none⟩).next = some n →
      seg h a (ps ++ [(b, v)]) n := by
  intro ps
  induction ps with
  | nil =>
    intro a b hseg hb hval hnext
    subst hseg
    exact ⟨rfl, hb, hval, n, hnext, rfl⟩
  | cons p ps ih =>
    intro a b hseg hb hval hnext
    obtain ⟨x0, v0⟩ := p
    obtain ⟨hx0, ha, hv0, m, hm, hrest⟩ := hseg
    exact ⟨hx0, ha, hv0, m, hm, ih m b hrest hb hval hnext⟩

end LBQ

namespace LBQ

theorem nodup_lt_le_length (xs : List Nat) (N : Nat) (hn : xs.Nodup)
    (hb : ∀ x ∈ xs, x < N) : xs.length ≤ N := by
  have hcard : xs.toFinset.card = xs.length := List.toFinset_card_of_nodup hn
  have hsub : xs.toFinset ⊆ Finset.range N := by
    intro x hx
    rw [List.mem_toFinset] at hx
    rw [Finset.mem_range]
    exact hb x hx
  have := Finset.card_le_card hsub
  rw [hcard, Finset.card_range] at this
  exact this

theorem initL_inv (T : Type) : LInv (initL T) [] := by
  refine ⟨0, 0, [], [], rfl, rfl, rfl, by simp [initL], rfl, trivial, by simp, rfl⟩

theorem emptyOp_inv {T : Type} {q : LQueue T} {l : List T} (h : LInv q l) :
    emptyOp q = some l.isEmpty := by
  obtain ⟨f, b, ps, fs, hf, hb, hseg, hblt, hbph, hfl, hnd, hl⟩ := h
  simp only [emptyOp, hf]
  cases ps with
  | nil =>
    have hfb : f = b := hseg
    subst hfb
    rw [if_pos hblt]
    subst hl
    simp only [readN, hbph, List.map_nil, List.isEmpty_nil]
    rfl
  | cons p ps2 =>
    obtain ⟨x, v⟩ := p
    obtain ⟨hx, ha, hval, n, hnext, hrest⟩ := hseg
    subst hx
    rw [if_pos ha]
    subst hl
    simp only [readN, hnext, List.map_cons, List.isEmpty_cons]
    rfl

/-- Full characterization of a completing insert from a reachable state:
it always completes, constructs the value into the old placeholder at
back linking it to a freshly obtained node, publishes that node (still an
uninitialized placeholder) as the new back, leaves front untouched and
appends the value to the abstract content. -/
theorem insert_step {T : Type} {q : LQueue T} {l : List T} (h : LInv q l) (v : T) :
    ∃ q2 p b, insert q v = some q2 ∧ q.back = some b ∧
      q2.back = some p ∧ p ≠ b ∧
      q2.front = q.front ∧
      q2.heap.getD b ⟨CellVal.uninit, none⟩ = ⟨CellVal.live v, some p⟩ ∧
      q2.heap.getD p ⟨CellVal.uninit, none⟩ = ⟨CellVal.uninit, none⟩ ∧
      LInv q2 (l ++ [v]) := by
  obtain ⟨f, b, ps, fs, hf, hb, hseg, hblt, hbph, hfl, hnd, hl⟩ := h
  have hbps : b ∉ ps.map Prod.fst := by
    rw [List.nodup_append] at hnd
    intro hmem
    exact hnd.2.2 hmem (by simp)
  cases hfree : q.freeList with
  | none =>
    cases fs with
    | cons y ys => rw [hfree] at hfl; exact absurd hfl (by simp [flist])
    | nil =>
    refine ⟨{ q with
        heap := (q.heap ++ [(⟨CellVal.uninit, none⟩ : LNode T)]).set b
          ⟨CellVal.live v, some q.heap.length⟩
        back := some q.heap.length }, q.heap.length, b, ?_, hb, rfl, by omega, rfl,
      ?_, ?_, ?_⟩
    · simp only [insert, alloc_node, hfree, hb]
      rw [if_pos (by simp only [List.length_append, List.length_singleton]; omega)]
    · exact getD_set_self _ _ _ _
        (by simp only [List.length_append, List.length_singleton]; omega)
    · rw [getD_set_ne _ _ _ (by omega)]
      exact getD_append_len _ _ _
    · refine ⟨f, q.heap.length, ps ++ [(b, v)], [], hf, rfl, ?_, ?_, ?_,
        (by simp only [hfree, flist]), ?_, ?_⟩
      · refine seg_snoc _ v q.heap.length _ _ _ ?_ ?_ ?_ ?_
        · exact seg_set_outside _ b _ _ _ _ (seg_append _ _ _ _ _ hseg) hbps
        · simp only [List.length_set, List.length_append, List.length_singleton]
          omega
        · rw [getD_set_self _ _ _ _
            (by simp only [List.length_append, List.length_singleton]; omega)]
        · rw [getD_set_self _ _ _ _
            (by simp only [List.length_append, List.length_singleton]; omega)]
      · simp only [List.length_set, List.length_append, List.length_singleton]
        omega
      · rw [getD_set_ne _ _ _ (by omega)]
        exact getD_append_len _ _ _
      · simp only [List.map_append, List.map_cons, List.map_nil]
        rw [List.nodup_append]
        refine ⟨hnd, by simp, ?_⟩
        intro x hx
        have hxlt : x < q.heap.length := by
          simp only [List.mem_append, List.mem_cons, List.not_mem_nil, or_false] at hx
          rcases hx with hx | hx
          · exact seg_addr_lt _ _ _ _ hseg x hx
          · omega
        simp only [List.mem_cons, List.not_mem_nil, or_false]
        omega
      · simp [hl]
  | some y =>
    cases fs with
    | nil => rw [hfree] at hfl; exact absurd hfl (by simp [flist])
    | cons y2 fs2 =>
    rw [hfree] at hfl
    obtain ⟨hy, hylt, hfl2⟩ := hfl
    subst hy
    have hby : b ≠ y2 := by
      rw [List.nodup_append] at hnd
      have h2 := hnd.2.1
      simp only [List.nodup_cons] at h2
      intro hh
      exact h2.1 (by simp [hh])
    have hyps : y2 ∉ ps.map Prod.fst := by
      rw [List.nodup_append] at hnd
      intro hmem
      exact hnd.2.2 hmem (by simp)
    have hyfs : y2 ∉ fs2 := by
      rw [List.nodup_append] at hnd
      have h2 := hnd.2.1
      simp only [List.nodup_cons] at h2
      exact h2.2.1
    have hbfs : b ∉ fs2 := by
      rw [List.nodup_append] at hnd
      have h2 := hnd.2.1
      simp only [List.nodup_cons] at h2
      intro hh
      exact h2.1 (by simp [hh])
    refine ⟨{ q with
        heap := (q.heap.set y2 ⟨CellVal.uninit, none⟩).set b ⟨CellVal.live v, some y2⟩
        back := some y2
        freeList := (readN q y2).next }, y2, b, ?_, hb, rfl, Ne.symm hby, rfl,
      ?_, ?_, ?_⟩
    · simp only [insert, alloc_node, hfree, hb]
      rw [if_pos (by simp only [List.length_set]; omega)]
    · exact getD_set_self _ _ _ _ (by simp only [List.length_set]; omega)
    · rw [getD_set_ne _ _ _ hby]
      exact getD_set_self _ _ _ _ hylt
    · refine ⟨f, y2, ps ++ [(b, v)], fs2, hf, rfl, ?_, ?_, ?_, ?_, ?_, ?_⟩
      · refine seg_snoc _ v y2 _ _ _ ?_ ?_ ?_ ?_
        · exact seg_set_outside _ b _ _ _ _
            (seg_set_outside _ y2 _ _ _ _ hseg hyps) hbps
        · simp only [List.length_set]; omega
        · rw [getD_set_self _ _ _ _ (by simp only [List.length_set]; omega)]
        · rw [getD_set_self _ _ _ _ (by simp only [List.length_set]; omega)]
      · simp only [List.length_set]; omega
      · rw [getD_set_ne _ _ _ hby]
        exact getD_set_self _ _ _ _ hylt
      · simp only [readN]
        refine flist_set_outside _ b _ _ _ ?_ hbfs
        exact flist_set_outside _ y2 _ _ _ hfl2 hyfs
      · simp only [List.map_append, List.map_cons, List.map_nil,
          List.append_assoc, List.singleton_append]
        simpa using hnd
      · simp [hl]

end LBQ

namespace LBQ

/-- Full characterization of the common pop path on a reachable non-empty
state: with a non-throwing element constructor it detaches the front
node, moves its value out (leaving a moved-from remnant, no destructor
call), links the node to the previous free list head and publishes it as
the new head; with a throwing constructor the exception escapes before
any modification, carrying the queue unchanged. -/
theorem pop_impl_step {T : Type} {q : LQueue T} {l : List T} (h : LInv q l)
    (hne : l ≠ []) :
    ∃ q2 v f, q.front = some f ∧
      pop_impl q false = some (Except.ok (q2, v)) ∧
      pop_impl q true = some (Except.error q) ∧
      l[0]? = some v ∧
      q2.front = (readN q f).next ∧
      q2.freeList = some f ∧
      q2.heap.getD f ⟨CellVal.uninit, none⟩ = ⟨CellVal.moved, q.freeList⟩ ∧
      LInv q2 l.tail := by
  obtain ⟨x, b, ps, fs, hf, hb, hseg, hblt, hbph, hfl, hnd, hl⟩ := h
  cases ps with
  | nil => subst hl; exact absurd rfl hne
  | cons p ps2 =>
  obtain ⟨x, v0⟩ := p
  obtain ⟨hx, halt, hval, n, hnext, hrest⟩ := hseg
  subst hx
  have hfps : x ∉ ps2.map Prod.fst := by
    rw [List.nodup_append] at hnd
    have h2 := hnd.1
    simp only [List.map_cons, List.nodup_cons] at h2
    exact h2.1
  have hfb : x ≠ b := by
    rw [List.nodup_append] at hnd
    intro hh
    exact hnd.2.2 (show x ∈ _ by simp) (show x ∈ _ by simp [hh])
  have hffs : x ∉ fs := by
    rw [List.nodup_append] at hnd
    intro hh
    exact hnd.2.2 (show x ∈ _ by simp) (show x ∈ _ by simp [hh])
  have hbps2 : b ∉ ps2.map Prod.fst := by
    rw [List.nodup_append] at hnd
    intro hmem
    exact hnd.2.2 (show b ∈ _ by simp [hmem]) (show b ∈ _ by simp)
  have hbfs : b ∉ fs := by
    rw [List.nodup_append] at hnd
    have h2 := hnd.2.1
    simp only [List.nodup_cons] at h2
    exact h2.1
  refine ⟨{ q with
      heap := (q.heap.set x ⟨CellVal.moved, (readN q x).next⟩).set x
        ⟨CellVal.moved, q.freeList⟩
      front := (readN q x).next
      freeList := some x }, v0, x, hf, ?_, ?_, ?_, rfl, rfl, ?_, ?_⟩
  · simp only [pop_impl, hf]
    rw [if_pos halt]
    simp only [readN, hval]
    rfl
  · simp only [pop_impl, hf]
    rw [if_pos halt]
    simp only [readN, hval]
    rfl
  · simp [hl]
  · rw [getD_set_self _ _ _ _ (by simp only [List.length_set]; omega)]
  · have hnn : (readN q x).next = some n := by simp only [readN]; exact hnext
    refine ⟨n, b, ps2, x :: fs, by rw [hnn], hb, ?_, ?_, ?_, ?_, ?_, ?_⟩
    · refine seg_set_outside _ x _ _ _ _ ?_ hfps
      exact seg_set_outside _ x _ _ _ _ hrest hfps
    · simp only [List.length_set]; omega
    · rw [getD_set_ne _ _ _ hfb, getD_set_ne _ _ _ hfb]
      exact hbph
    · refine ⟨rfl, by simp only [List.length_set]; omega, ?_⟩
      rw [getD_set_self _ _ _ _ (by simp only [List.length_set]; omega)]
      refine flist_set_outside _ x _ _ _ ?_ hffs
      exact flist_set_outside _ x _ _ _ hfl hffs
    · have hperm : List.Perm (ps2.map Prod.fst ++ b :: x :: fs)
        (x :: (ps2.map Prod.fst ++ b :: fs)) := by
        have : List.Perm ((ps2.map Prod.fst ++ [b]) ++ x :: fs)
            (x :: ((ps2.map Prod.fst ++ [b]) ++ fs)) := List.perm_middle
        simpa using this
      refine hperm.symm.nodup ?_
      simpa using hnd
    · simp [hl]

end LBQ

namespace LBQ

theorem insert_some_inv {T : Type} {q : LQueue T} {l : List T} {v : T}
    {q2 : LQueue T} (h : LInv q l) (hi : insert q v = some q2) :
    LInv q2 (l ++ [v]) := by
  obtain ⟨q3, p, b, hi2, _, _, _, _, _, _, hinv⟩ := insert_step h v
  rw [hi] at hi2
  injection hi2 with hq
  exact hq ▸ hinv

theorem pop_ok_inv {T : Type} {q : LQueue T} {l : List T} {q2 : LQueue T} {v : T}
    (h : LInv q l) (hp : pop q false = some (Except.ok (q2, v))) :
    l[0]? = some v ∧ LInv q2 l.tail := by
  by_cases hne : l = []
  · subst hne
    have he := emptyOp_inv h
    simp only [List.isEmpty_nil] at he
    simp only [pop, he] at hp
    exact absurd hp (by simp)
  · obtain ⟨q3, v3, f, hf, hok, _, hv3, _, _, _, hinv⟩ := pop_impl_step h hne
    have he := emptyOp_inv h
    have hfalse : l.isEmpty = false := by
      cases l with
      | nil => exact absurd rfl hne
      | cons a as => rfl
    rw [hfalse] at he
    simp only [pop, he] at hp
    rw [hok] at hp
    injection hp with hp
    injection hp with hp
    injection hp with h1 h2
    subst h1
    subst h2
    exact ⟨hv3, hinv⟩

end LBQ

namespace LBQ

/-- FIFO for the linked queue: a schedule with as many pops as initial
content plus pushes, whose operations all complete, pops exactly the
initial content followed by the pushed values in order. -/
theorem runL_fifo {T : Type} :
    ∀ (ops : List SdOp) (q : LQueue T) (l vs : List T) (qf : LQueue T) (out : List T),
      LInv q l → runL q vs ops = some (qf, out) → nPush ops = vs.length →
      nPop ops = l.length + vs.length → out = l ++ vs := by
  intro ops
  induction ops with
  | nil =>
    intro q l vs qf out h hrun hpush hpop
    simp only [runL, Option.some.injEq, Prod.mk.injEq] at hrun
    simp only [nPush] at hpush
    simp only [nPop] at hpop
    have hvs : vs = [] := List.eq_nil_of_length_eq_zero hpush.symm
    have hl : l = [] := List.eq_nil_of_length_eq_zero (by omega)
    simp [hvs, hl, ← hrun.2]
  | cons op ops ih =>
    intro q l vs qf out h hrun hpush hpop
    cases op with
    | push =>
      simp only [nPush] at hpush
      simp only [nPop] at hpop
      cases vs with
      | nil => simp at hpush
      | cons v vs2 =>
        simp only [runL] at hrun
        cases he : insert q v with
        | none => rw [he] at hrun; simp at hrun
        | some q2 =>
          rw [he] at hrun
          rw [Option.some_bind] at hrun
          have h2 := insert_some_inv h he
          have := ih q2 (l ++ [v]) vs2 qf out h2 hrun (by simpa using hpush)
            (by simp only [List.length_append, List.length_cons,
              List.length_nil] at hpop ⊢; omega)
          simpa using this
    | pop =>
      simp only [nPush] at hpush
      simp only [nPop] at hpop
      simp only [runL] at hrun
      cases hp : pop q false with
      | none => rw [hp] at hrun; simp at hrun
      | some r =>
        cases r with
        | error qe => rw [hp] at hrun; simp at hrun
        | ok p =>
          obtain ⟨q2, w⟩ := p
          rw [hp] at hrun
          simp only at hrun
          cases hr : runL q2 vs ops with
          | none => rw [hr] at hrun; simp at hrun
          | some r2 =>
            obtain ⟨qf2, out2⟩ := r2
            rw [hr, Option.map_some'] at hrun
            injection hrun with hrun
            injection hrun with hq hout
            dsimp only at hq hout
            obtain ⟨hhead, h2⟩ := pop_ok_inv h hp
            cases l with
            | nil => simp at hhead
            | cons x ls =>
              simp only [List.getElem?_cons_zero, Option.some.injEq] at hhead
              have := ih q2 ls vs qf2 out2 (by simpa using h2) hr hpush
                (by simp only [List.length_cons] at hpop; omega)
              rw [← hout, this, hhead]
              simp

/-- Every state reached by a completing schedule from a reachable state
is reachable. -/
theorem runL_reach {T : Type} :
    ∀ (ops : List SdOp) (q : LQueue T) (l vs : List T) (qf : LQueue T) (out : List T),
      LInv q l → runL q vs ops = some (qf, out) → ∃ lf, LInv qf lf := by
  intro ops
  induction ops with
  | nil =>
    intro q l vs qf out h hrun
    simp only [runL, Option.some.injEq, Prod.mk.injEq] at hrun
    exact ⟨l, hrun.1 ▸ h⟩
  | cons op ops ih =>
    intro q l vs qf out h hrun
    cases op with
    | push =>
      cases vs with
      | nil => simp [runL] at hrun
      | cons v vs2 =>
        simp only [runL] at hrun
        cases he : insert q v with
        | none => rw [he] at hrun; simp at hrun
        | some q2 =>
          rw [he] at hrun
          rw [Option.some_bind] at hrun
          exact ih q2 (l ++ [v]) vs2 qf out (insert_some_inv h he) hrun
    | pop =>
      simp only [runL] at hrun
      cases hp : pop q false with
      | none => rw [hp] at hrun; simp at hrun
      | some r =>
        cases r with
        | error qe => rw [hp] at hrun; simp at hrun
        | ok p =>
          obtain ⟨q2, w⟩ := p
          rw [hp] at hrun
          simp only at hrun
          cases hr : runL q2 vs ops with
          | none => rw [hr] at hrun; simp at hrun
          | some r2 =>
            obtain ⟨qf2, out2⟩ := r2
            rw [hr, Option.map_some'] at hrun
            injection hrun with hrun
            injection hrun with hq hout
            dsimp only at hq
            obtain ⟨hhead, h2⟩ := pop_ok_inv h hp
            exact hq ▸ ih q2 l.tail vs qf2 out2 h2 hr

end LBQ

namespace LBQ

/-- Walk the live chain from pointer a up to (excluding) pointer b,
collecting values; fuel bounds the walk so the function is total. -/
def chainVals (h : List (LNode T)) : Nat → Nat → Nat → List T
  | 0, _, _ => []
  | fuel + 1, a, b =>
    if a = b then []
    else
      match (h.getD a ⟨CellVal.uninit, none⟩).val,
          (h.getD a ⟨CellVal.uninit, none⟩).next with
      | CellVal.live v, some n => v :: chainVals h fuel n b
      | _, _ => []

/-- The abstract FIFO content of a linked queue state, computed by
walking the chain from front to back (the heap size bounds the walk). -/
def contents (q : LQueue T) : List T :=
  match q.front, q.back with
  | some f, some b => chainVals q.heap q.heap.length f b
  | _, _ => []

theorem chainVals_eq {T : Type} (h : List (LNode T)) :
    ∀ (ps : List (Nat × T)) (a b fuel : Nat), seg h a ps b →
      b ∉ ps.map Prod.fst → ps.length ≤ fuel →
      chainVals h fuel a b = ps.map Prod.snd := by
  intro ps
  induction ps with
  | nil =>
    intro a b fuel hseg _ _
    have hab : a = b := hseg
    subst hab
    cases fuel with
    | zero => rfl
    | succ m => simp [chainVals]
  | cons p ps2 ih =>
    intro a b fuel hseg hb hfuel
    obtain ⟨x, v⟩ := p
    obtain ⟨hx, ha, hval, n, hnext, hrest⟩ := hseg
    subst hx
    cases fuel with
    | zero => simp at hfuel
    | succ m =>
      have hab : x ≠ b := by
        intro hh
        exact hb (by simp [hh])
      simp only [chainVals, if_neg hab, hval, hnext, List.map_cons]
      have := ih n b m hrest (by intro hh; exact hb (by simp [hh])) (by simpa using hfuel)
      rw [this]

theorem contents_eq {T : Type} {q : LQueue T} {l : List T} (h : LInv q l) :
    contents q = l := by
  obtain ⟨f, b, ps, fs, hf, hb, hseg, hblt, hbph, hfl, hnd, hl⟩ := h
  have hbps : b ∉ ps.map Prod.fst := by
    rw [List.nodup_append] at hnd
    intro hmem
    exact hnd.2.2 hmem (by simp)
  have hlen : ps.length ≤ q.heap.length := by
    have hnodup : (ps.map Prod.fst).Nodup := by
      rw [List.nodup_append] at hnd
      exact hnd.1
    have := nodup_lt_le_length (ps.map Prod.fst) q.heap.length hnodup
      (seg_addr_lt _ _ _ _ hseg)
    simpa using this
  simp only [contents, hf, hb]
  rw [chainVals_eq _ _ _ _ _ hseg hbps hlen, hl]

end LBQ

namespace ABQ

inductive AllocFailure : Type
  | badAlloc : AllocFailure
deriving DecidableEq

/-- array_blocking_queue::allocate, with malloc modelled by its result:
auto p = malloc(...); if (!p) throw std::bad_alloc; return p.  The
failure is surfaced synchronously as an exception to the caller. -/
def allocate (mallocResult : Option Nat) : Except AllocFailure Nat :=
  match mallocResult with
  | none => Except.error AllocFailure.badAlloc
  | some p => Except.ok p

end ABQ

namespace LBQ

inductive NodeAllocOutcome : Type
  | gotNode : Nat → NodeAllocOutcome
  | nullMemsetUB : NodeAllocOutcome
deriving DecidableEq

/-- linked_blocking_queue::alloc_node with a fallible allocator.
alloc_from_free_list returns the free list head if there is one;
otherwise alloc_from_allocator returns static_cast of
malloc(sizeof(node)), which is null on exhaustion.  alloc_node then runs
memset(new_node, 0, sizeof(node)) unconditionally: with a null pointer
that is a write through null (undefined behavior), not a surfaced
allocation-failure condition, although the function doc comment claims
the function may throw when both sources are exhausted. -/
def alloc_node_fallible (freeListHead : Option Nat) (mallocResult : Option Nat) :
    NodeAllocOutcome :=
  match freeListHead with
  | some p => NodeAllocOutcome.gotNode p
  | none =>
    match mallocResult with
    | some p => NodeAllocOutcome.gotNode p
    | none => NodeAllocOutcome.nullMemsetUB

end LBQ

theorem isPowerOfTwoB_iff : ∀ n, ABQ.isPowerOfTwoB n = true ↔ ∃ j, n = 2 ^ j := by
  intro n
  induction n using Nat.strong_induction_on with
  | _ n ih =>
    match n with
    | 0 =>
      simp only [ABQ.isPowerOfTwoB]
      constructor
      · intro hh; cases hh
      · rintro ⟨j, hj⟩
        have := Nat.two_pow_pos j
        omega
    | 1 =>
      simp only [ABQ.isPowerOfTwoB]
      exact ⟨fun _ => ⟨0, rfl⟩, fun _ => trivial⟩
    | (m + 2) =>
      simp only [ABQ.isPowerOfTwoB, Bool.and_eq_true, decide_eq_true_eq]
      constructor
      · rintro ⟨heven, hrec⟩
        have hlt : (m + 2) / 2 < m + 2 := Nat.div_lt_self (by omega) (by omega)
        obtain ⟨j, hj⟩ := (ih _ hlt).mp hrec
        have hdm := Nat.div_add_mod (m + 2) 2
        refine ⟨j + 1, ?_⟩
        rw [pow_succ]
        omega
      · rintro ⟨j, hj⟩
        cases j with
        | zero => simp at hj
        | succ j2 =>
          rw [pow_succ] at hj
          have hdiv : (m + 2) / 2 = 2 ^ j2 := by
            rw [hj]
            exact Nat.mul_div_cancel _ (by omega)
          constructor
          · omega
          · have hlt : (m + 2) / 2 < m + 2 := Nat.div_lt_self (by omega) (by omega)
            exact (ih _ hlt).mpr ⟨j2, hdiv⟩

/-- Claim C1: the spec says construction must reject capacity 0, 1 and
every non-power-of-two, succeeding only on powers of two greater than 1.
The constructor of array_blocking_queue instead asserts capacity > 1 and
capacity % 2 == 0 (evenness), so it accepts the even non-power-of-two
capacity 6; with capacity 6 the masked slot index ticket & (capacity-1)
is not the modulus the protocol needs (the in-code pseudocode says
ticket % capacity): tickets 0 and 2 of generation 0 collide on slot 0,
and the third blocking push of a run deadlocks on a queue holding only 2
of its 6 advertised slots. -/
theorem c1_capacity_check_accepts_six :
    ABQ.ctor_accepts 0 = false ∧ ABQ.ctor_accepts 1 = false ∧
    ABQ.ctor_accepts 2 = true ∧ ABQ.ctor_accepts 4 = true ∧
    ABQ.ctor_accepts 6 = true ∧ ABQ.isPowerOfTwoB 6 = false ∧
    ABQ.get_idx 6 0 = 0 ∧ ABQ.get_idx 6 2 = 0 ∧
    ABQ.get_write_turn 6 0 = ABQ.get_write_turn 6 2 ∧
    ABQ.runA (ABQ.initA Nat 6) [1, 2, 3] [SdOp.push, SdOp.push, SdOp.push] = none := by
  refine ⟨by decide, by decide, by decide, by decide, by decide, ?_, by decide,
    by decide, by decide, by decide⟩
  simp [ABQ.isPowerOfTwoB]

/-- Claim C2: the bounded queue surfaces malloc failure synchronously as
std::bad_alloc, but the unbounded queue does not: when the free list is
empty and malloc returns null, alloc_node proceeds to memset the null
pointer (undefined behavior) instead of surfacing an allocation-failure
condition, contradicting its own documentation comment. -/
theorem c2_alloc_failure_surfacing :
    ABQ.allocate none = Except.error ABQ.AllocFailure.badAlloc ∧
    ABQ.allocate (some 7) = Except.ok 7 ∧
    LBQ.alloc_node_fallible (some 3) none = LBQ.NodeAllocOutcome.gotNode 3 ∧
    LBQ.alloc_node_fallible none (some 5) = LBQ.NodeAllocOutcome.gotNode 5 ∧
    LBQ.alloc_node_fallible none none = LBQ.NodeAllocOutcome.nullMemsetUB :=
  ⟨rfl, rfl, rfl, rfl, rfl⟩

/-- Claim C3: for both queue types, any completing sequential schedule of
blocking pushes (single producer, values vs in order) and blocking pops
(single consumer) that fully drains the queue (as many pops as pushes)
returns exactly the pushed sequence, in order. -/
theorem c3_sequential_fifo {α β : Type} (k : Nat) (hk : 1 ≤ k)
    (vsA : List α) (opsA : List SdOp) (qA : ABQ.AState α) (outA : List α)
    (hrunA : ABQ.runA (ABQ.initA α (2 ^ k)) vsA opsA = some (qA, outA))
    (hpushA : nPush opsA = vsA.length) (hpopA : nPop opsA = vsA.length)
    (vsL : List β) (opsL : List SdOp) (qL : LBQ.LQueue β) (outL : List β)
    (hrunL : LBQ.runL (LBQ.initL β) vsL opsL = some (qL, outL))
    (hpushL : nPush opsL = vsL.length) (hpopL : nPop opsL = vsL.length) :
    outA = vsA ∧ outL = vsL := by
  constructor
  · have := ABQ.runA_fifo opsA (ABQ.initA α (2 ^ k)) [] vsA qA outA
      (ABQ.initA_inv α k hk) hrunA hpushA (by simpa using hpopA)
    simpa using this
  · have := LBQ.runL_fifo opsL (LBQ.initL β) [] vsL qL outL
      (LBQ.initL_inv β) hrunL hpushL (by simpa using hpopL)
    simpa using this

/-- Claim C4: for a valid capacity 2 ^ k, after exactly 2 ^ k successful
blocking pushes from empty and zero pops, try_push fails immediately and
leaves the queue unchanged; after one successful pop, the next try_push
succeeds. -/
theorem c4_full_try_push {T : Type} (k : Nat) (hk : 1 ≤ k) (vs : List T)
    (hlen : vs.length = 2 ^ k) (qf q1 : ABQ.AState T) (u v w : T)
    (hpush : ABQ.pushAll (ABQ.initA T (2 ^ k)) vs = some qf)
    (hpop : ABQ.pop qf = some (q1, u)) :
    ABQ.try_emplace qf v = (false, qf) ∧ (ABQ.try_emplace q1 w).1 = true := by
  have hinv : ABQ.AInv k qf vs := by
    have := ABQ.pushAll_some_inv vs (ABQ.initA T (2 ^ k)) [] qf
      (ABQ.initA_inv T k hk) hpush
    simpa using this
  constructor
  · refine ABQ.try_emplace_full hinv ?_ v
    rw [hlen, hinv.hcap]
    omega
  · obtain ⟨h0, hinv1⟩ := ABQ.pop_some_inv hinv hpop
    refine ABQ.try_emplace_not_full hinv1 ?_ w
    rw [List.length_tail, hlen, hinv1.hcap]
    have := Nat.two_pow_pos k
    omega

/-- Claim C6: on every reachable empty state of either queue, try_pop
completes immediately (it never blocks and never gets stuck) reporting no
value, and leaves the queue state unchanged. -/
theorem c6_try_pop_empty {α β : Type} (k : Nat) (hk : 1 ≤ k)
    (vsA : List α) (opsA : List SdOp) (qA : ABQ.AState α) (outA : List α)
    (hrunA : ABQ.runA (ABQ.initA α (2 ^ k)) vsA opsA = some (qA, outA))
    (hempty : qA.head = qA.tail)
    (vsL : List β) (opsL : List SdOp) (qL : LBQ.LQueue β) (outL : List β)
    (hrunL : LBQ.runL (LBQ.initL β) vsL opsL = some (qL, outL))
    (hemptyL : LBQ.emptyOp qL = some true) :
    ABQ.try_pop qA = some (none, qA) ∧
      LBQ.try_pop qL false = some (Except.ok (none, qL)) := by
  clear hrunL
  constructor
  · obtain ⟨l, hinv⟩ := ABQ.runA_reach opsA (ABQ.initA α (2 ^ k)) [] vsA qA outA
      (ABQ.initA_inv α k hk) hrunA
    have hl : l = [] := by
      have := hinv.hlen_l
      have := hinv.hht
      exact List.eq_nil_of_length_eq_zero (by omega)
    exact ABQ.try_pop_empty hinv hl
  · simp only [LBQ.try_pop, hemptyL]

/-- Claim C8: for every ticket the slot index is ticket & (capacity - 1),
the write turn is 2 * (ticket / capacity) and the read turn is
2 * (ticket / capacity) + 1; and in every reachable state a slot holds a
constructed value exactly when its turn counter is odd, which is what
has_val reads off the turn (the Option-typed slot storage of the model
holds at most one constructed element by construction). -/
theorem c8_ticket_geometry_and_parity {T : Type} (k t i : Nat) (hk : 1 ≤ k)
    (hi : i < 2 ^ k) (vs : List T) (ops : List SdOp) (q : ABQ.AState T)
    (out : List T)
    (hrun : ABQ.runA (ABQ.initA T (2 ^ k)) vs ops = some (q, out)) :
    ABQ.get_idx (2 ^ k) t = t &&& (2 ^ k - 1) ∧
    ABQ.get_write_turn (2 ^ k) t = 2 * (t / 2 ^ k) ∧
    ABQ.get_read_turn (2 ^ k) t = 2 * (t / 2 ^ k) + 1 ∧
    ((q.vals.getD i none).isSome = true ↔ q.turns.getD i 0 % 2 = 1) ∧
    ABQ.has_val q i = (q.vals.getD i none).isSome := by
  obtain ⟨l, hinv⟩ := ABQ.runA_reach ops (ABQ.initA T (2 ^ k)) [] vs q out
    (ABQ.initA_inv T k hk) hrun
  have hc : 0 < q.capacity := hinv.cap_pos
  have hi2 : i < q.capacity := by rw [hinv.hcap]; exact hi
  have hturn := hinv.hturn i hi2
  have hocc := hinv.hocc i hi2
  obtain ⟨d, hd⟩ : ∃ d, q.tail = q.head + d :=
    ⟨q.tail - q.head, by have := hinv.hht; omega⟩
  have hdcap : d ≤ q.capacity := by have := hinv.hwin; omega
  have hbounds := ABQ.cnt_window_bounds q.capacity q.head d i hc hdcap hi2
  rw [hd] at hturn hocc
  have hparity : (q.vals.getD i none).isSome = true ↔ q.turns.getD i 0 % 2 = 1 := by
    rw [hturn, hocc]
    omega
  refine ⟨rfl, by simp [ABQ.get_write_turn]; omega, by simp [ABQ.get_read_turn]; omega,
    hparity, ?_⟩
  simp only [ABQ.has_val, Nat.and_one_is_mod]
  by_cases hodd : q.turns.getD i 0 % 2 = 1
  · rw [(hparity.mpr hodd)]
    simp only [decide_eq_true_eq]
    omega
  · have h0 : q.turns.getD i 0 % 2 = 0 := by omega
    have hns : ¬ ((q.vals.getD i none).isSome = true) := fun hh => hodd (hparity.mp hh)
    simp only [Bool.not_eq_true] at hns
    rw [hns]
    simp only [decide_eq_false_iff_not]
    omega

/-- Whether an Except result is a success. -/
def exceptIsOk {α β : Type} : Except α β → Bool
  | Except.ok _ => true
  | Except.error _ => false

/-- Claim C5: in every reachable state of the unbounded queue the node at
back is an uninitialized placeholder with a null next pointer, the queue
content is empty exactly when the next pointer of the front node is null
(equivalently front = back), empty() returns exactly that test, and a
push constructs the value into the existing placeholder at back, links a
fresh placeholder and advances back to it while leaving front alone. -/
theorem c5_sentinel_at_tail {T : Type} (vs : List T) (ops : List SdOp)
    (q : LBQ.LQueue T) (out : List T) (f b : Nat) (v : T) (q2 : LBQ.LQueue T)
    (p : Nat)
    (hrun : LBQ.runL (LBQ.initL T) vs ops = some (q, out))
    (hf : q.front = some f) (hb : q.back = some b)
    (hins : LBQ.insert q v = some q2) (hp : q2.back = some p) :
    (q.heap.getD b ⟨LBQ.CellVal.uninit, none⟩).val = LBQ.CellVal.uninit ∧
    (q.heap.getD b ⟨LBQ.CellVal.uninit, none⟩).next = none ∧
    (LBQ.contents q = [] ↔ (q.heap.getD f ⟨LBQ.CellVal.uninit, none⟩).next = none) ∧
    (LBQ.contents q = [] ↔ f = b) ∧
    LBQ.emptyOp q = some (q.heap.getD f ⟨LBQ.CellVal.uninit, none⟩).next.isNone ∧
    p ≠ b ∧ q2.front = q.front ∧
    q2.heap.getD b ⟨LBQ.CellVal.uninit, none⟩ = ⟨LBQ.CellVal.live v, some p⟩ ∧
    q2.heap.getD p ⟨LBQ.CellVal.uninit, none⟩ = ⟨LBQ.CellVal.uninit, none⟩ := by
  obtain ⟨l, hinv⟩ := LBQ.runL_reach ops (LBQ.initL T) [] vs q out
    (LBQ.initL_inv T) hrun
  have hcontents := LBQ.contents_eq hinv
  obtain ⟨q3, p3, b3, hi3, hb3, hp3, hpb3, hfr3, hgb3, hgp3, hinv3⟩ :=
    LBQ.insert_step hinv v
  rw [hins] at hi3
  injection hi3 with hq3
  subst hq3
  rw [hb] at hb3
  injection hb3 with hb3
  subst hb3
  rw [hp] at hp3
  injection hp3 with hp3
  subst hp3
  obtain ⟨f2, b2, ps, fs, hf2, hb2, hseg, hblt, hbph, hfl, hnd, hl⟩ := hinv
  rw [hf] at hf2
  injection hf2 with hf2
  subst hf2
  rw [hb] at hb2
  injection hb2 with hb2
  subst hb2
  refine ⟨by rw [hbph], by rw [hbph], ?_, ?_, ?_, hpb3, hfr3, hgb3, hgp3⟩
  · rw [hcontents]
    cases ps with
    | nil =>
      have hfb : f = b := hseg
      subst hfb
      simp only [hl, List.map_nil, true_iff]
      rw [hbph]
    | cons pr ps2 =>
      obtain ⟨x, v0⟩ := pr
      obtain ⟨hx, ha, hval, n, hnext, hrest⟩ := hseg
      subst hx
      simp only [hl, List.map_cons, false_iff]
      rw [hnext]
      simp
  · rw [hcontents]
    cases ps with
    | nil =>
      have hfb : f = b := hseg
      subst hfb
      simp [hl]
    | cons pr ps2 =>
      obtain ⟨x, v0⟩ := pr
      obtain ⟨hx, ha, hval, n, hnext, hrest⟩ := hseg
      subst hx
      simp only [hl, List.map_cons]
      refine iff_of_false (by simp) ?_
      rw [List.nodup_append] at hnd
      intro hh
      exact hnd.2.2 (show x ∈ _ by simp) (show x ∈ _ by simp [hh])
  · simp only [LBQ.emptyOp, hf]
    rw [if_pos ?hpos]
    case hpos =>
      cases ps with
      | nil => exact hseg ▸ hblt
      | cons pr ps2 =>
        obtain ⟨x, v0⟩ := pr
        obtain ⟨hx, ha, _, _, _, _⟩ := hseg
        subst hx
        exact ha
    rfl

/-- Claim C7: a successful pop or try_pop on a non-empty unbounded queue
moves the value out of the detached front node and pushes that node onto
the head of the free list; the node keeps a moved-from remnant (its
destructor is not invoked, which would return the cell to uninit), and
its next field is set to the previous free list head. -/
theorem c7_pop_frees_node {T : Type} (vs : List T) (ops : List SdOp)
    (q : LBQ.LQueue T) (out : List T) (q2 : LBQ.LQueue T) (v : T) (f : Nat)
    (fl : Option Nat)
    (hrun : LBQ.runL (LBQ.initL T) vs ops = some (q, out))
    (hf : q.front = some f) (hfl : q.freeList = fl)
    (hpop : LBQ.pop_impl q false = some (Except.ok (q2, v))) :
    q2.freeList = some f ∧
    (q2.heap.getD f ⟨LBQ.CellVal.uninit, none⟩).next = fl ∧
    (q2.heap.getD f ⟨LBQ.CellVal.uninit, none⟩).val = LBQ.CellVal.moved ∧
    LBQ.try_pop q false = some (Except.ok (some v, q2)) ∧
    LBQ.contents q = v :: LBQ.contents q2 := by
  obtain ⟨l, hinv⟩ := LBQ.runL_reach ops (LBQ.initL T) [] vs q out
    (LBQ.initL_inv T) hrun
  by_cases hne : l = []
  · exfalso
    obtain ⟨f2, b2, ps, fs, hf2, hb2, hseg, hblt, hbph, hfl2, hnd, hl⟩ := hinv
    subst hne
    cases ps with
    | cons pr ps2 => simp at hl
    | nil =>
      have hfb : f2 = b2 := hseg
      subst hfb
      rw [hf] at hf2
      injection hf2 with hf2
      subst hf2
      simp only [LBQ.pop_impl, hf] at hpop
      rw [if_pos hblt] at hpop
      simp only [LBQ.readN, hbph] at hpop
      exact absurd hpop (by simp)
  · obtain ⟨q3, v3, f3, hf3, hok, herr, hv3, hfr3, hfl3, hgf3, hinv3⟩ :=
      LBQ.pop_impl_step hinv hne
    rw [hf] at hf3
    injection hf3 with hf3
    subst hf3
    rw [hpop] at hok
    injection hok with hok
    injection hok with hok
    injection hok with hok1 hok2
    subst hok1
    subst hok2
    have hemp := LBQ.emptyOp_inv hinv
    have hfalse : l.isEmpty = false := by
      cases l with
      | nil => exact absurd rfl hne
      | cons a as => rfl
    rw [hfalse] at hemp
    refine ⟨hfl3, by rw [hgf3, hfl], by rw [hgf3], ?_, ?_⟩
    · simp only [LBQ.try_pop, hemp, hpop]
    · rw [LBQ.contents_eq hinv, LBQ.contents_eq hinv3]
      cases l with
      | nil => exact absurd rfl hne
      | cons a as =>
        simp only [List.getElem?_cons_zero, Option.some.injEq] at hv3
        rw [hv3]
        rfl

/-- Claim C9: if constructing the return value from the front node throws
during pop or try_pop, the exception escapes with the queue unmodified
(same front node, nothing detached, nothing pushed onto the free list),
and the element can still be popped afterwards. -/
theorem c9_throwing_ctor_leaves_queue {T : Type} (vs : List T) (ops : List SdOp)
    (q : LBQ.LQueue T) (out : List T)
    (hrun : LBQ.runL (LBQ.initL T) vs ops = some (q, out))
    (hne : LBQ.contents q ≠ []) :
    LBQ.pop_impl q true = some (Except.error q) ∧
    LBQ.try_pop q true = some (Except.error q) ∧
    LBQ.pop q true = some (Except.error q) ∧
    (LBQ.pop_impl q false).map exceptIsOk = some true := by
  obtain ⟨l, hinv⟩ := LBQ.runL_reach ops (LBQ.initL T) [] vs q out
    (LBQ.initL_inv T) hrun
  have hlne : l ≠ [] := by
    rw [LBQ.contents_eq hinv] at hne
    exact hne
  obtain ⟨q3, v3, f3, hf3, hok, herr, hv3, hfr3, hfl3, hgf3, hinv3⟩ :=
    LBQ.pop_impl_step hinv hlne
  have hemp := LBQ.emptyOp_inv hinv
  have hfalse : l.isEmpty = false := by
    cases l with
    | nil => exact absurd rfl hlne
    | cons a as => rfl
  rw [hfalse] at hemp
  refine ⟨herr, ?_, ?_, ?_⟩
  · simp only [LBQ.try_pop, hemp, herr]
  · simp only [LBQ.pop, hemp, herr]
  · rw [hok]
    rfl

/-- Claim C10: in every reachable state of a successfully constructed
unbounded queue the front and back pointers are non-null and point at
allocated nodes, so the unguarded dereference in empty() is safe (it
always produces an answer rather than hitting null). -/
theorem c10_ends_never_null {T : Type} (vs : List T) (ops : List SdOp)
    (q : LBQ.LQueue T) (out : List T)
    (hrun : LBQ.runL (LBQ.initL T) vs ops = some (q, out)) :
    q.front.isSome = true ∧ q.back.isSome = true ∧
      (LBQ.emptyOp q).isSome = true := by
  obtain ⟨l, hinv⟩ := LBQ.runL_reach ops (LBQ.initL T) [] vs q out
    (LBQ.initL_inv T) hrun
  have hemp := LBQ.emptyOp_inv hinv
  obtain ⟨f, b, ps, fs, hf, hb, _⟩ := hinv
  refine ⟨by rw [hf]; rfl, by rw [hb]; rfl, by rw [hemp]; rfl⟩

deriving instance DecidableEq for Except

namespace Wit

/-- Array queue state after pushing 3, 4 and popping both (capacity 2). -/
def wA1 : ABQ.AState Nat := ⟨2, [2, 2], [none, none], 2, 2⟩

/-- Linked queue state after pushing 7, 8 and popping both. -/
def wL1 : LBQ.LQueue Nat :=
  ⟨[⟨LBQ.CellVal.uninit, none⟩, ⟨LBQ.CellVal.moved, none⟩], some 0, some 0, some 1⟩

/-- Array queue (capacity 2) filled with 10, 20. -/
def wAfull : ABQ.AState Nat := ⟨2, [1, 1], [some 10, some 20], 0, 2⟩

/-- The filled queue after one pop. -/
def wApop : ABQ.AState Nat := ⟨2, [2, 1], [none, some 20], 1, 2⟩

/-- Linked queue holding 7. -/
def wL7 : LBQ.LQueue Nat :=
  ⟨[⟨LBQ.CellVal.live 7, some 1⟩, ⟨LBQ.CellVal.uninit, none⟩], some 0, some 1, none⟩

/-- The previous queue after also pushing 9. -/
def wL79 : LBQ.LQueue Nat :=
  ⟨[⟨LBQ.CellVal.live 7, some 1⟩, ⟨LBQ.CellVal.live 9, some 2⟩,
    ⟨LBQ.CellVal.uninit, none⟩], some 0, some 2, none⟩

/-- Linked queue after pushing 7, 8 and popping 7 (node 0 recycled). -/
def wL78 : LBQ.LQueue Nat :=
  ⟨[⟨LBQ.CellVal.moved, none⟩, ⟨LBQ.CellVal.live 8, some 2⟩,
    ⟨LBQ.CellVal.uninit, none⟩], some 1, some 2, some 0⟩

/-- The previous queue after popping 8. -/
def wL78pop : LBQ.LQueue Nat :=
  ⟨[⟨LBQ.CellVal.moved, none⟩, ⟨LBQ.CellVal.moved, some 0⟩,
    ⟨LBQ.CellVal.uninit, none⟩], some 2, some 2, some 1⟩

/-- Array queue (capacity 2) after one push of 3. -/
def wA3 : ABQ.AState Nat := ⟨2, [1, 0], [some 3, none], 0, 1⟩

end Wit

/-- Witness for claim C3 at a concrete schedule on both queues. -/
theorem c3_sequential_fifo_witness :
    ABQ.runA (ABQ.initA Nat (2 ^ 1)) [3, 4]
        [SdOp.push, SdOp.pop, SdOp.push, SdOp.pop] = some (Wit.wA1, [3, 4]) ∧
    LBQ.runL (LBQ.initL Nat) [7, 8]
        [SdOp.push, SdOp.pop, SdOp.push, SdOp.pop] = some (Wit.wL1, [7, 8]) ∧
    (([3, 4] : List Nat) = [3, 4] ∧ ([7, 8] : List Nat) = [7, 8]) :=
  ⟨by decide, by decide,
    c3_sequential_fifo 1 (by decide) [3, 4]
      [SdOp.push, SdOp.pop, SdOp.push, SdOp.pop] Wit.wA1 [3, 4]
      (by decide) (by decide) (by decide) [7, 8]
      [SdOp.push, SdOp.pop, SdOp.push, SdOp.pop] Wit.wL1 [7, 8]
      (by decide) (by decide) (by decide)⟩

/-- Witness for claim C4 at capacity 2 with pushes 10, 20. -/
theorem c4_full_try_push_witness :
    ABQ.pushAll (ABQ.initA Nat (2 ^ 1)) [10, 20] = some Wit.wAfull ∧
    ABQ.pop Wit.wAfull = some (Wit.wApop, 10) ∧
    (ABQ.try_emplace Wit.wAfull 5 = (false, Wit.wAfull) ∧
      (ABQ.try_emplace Wit.wApop 6).1 = true) :=
  ⟨by decide, by decide,
    c4_full_try_push 1 (by decide) [10, 20] (by decide) Wit.wAfull Wit.wApop
      10 5 6 (by decide) (by decide)⟩

/-- Witness for claim C5 on a queue holding one value. -/
theorem c5_sentinel_at_tail_witness :
    LBQ.runL (LBQ.initL Nat) [7] [SdOp.push] = some (Wit.wL7, []) ∧
    Wit.wL7.front = some 0 ∧ Wit.wL7.back = some 1 ∧
    LBQ.insert Wit.wL7 9 = some Wit.wL79 ∧ Wit.wL79.back = some 2 ∧
    ((Wit.wL7.heap.getD 1 ⟨LBQ.CellVal.uninit, none⟩).val = LBQ.CellVal.uninit ∧
     (Wit.wL7.heap.getD 1 ⟨LBQ.CellVal.uninit, none⟩).next = none ∧
     (LBQ.contents Wit.wL7 = [] ↔
       (Wit.wL7.heap.getD 0 ⟨LBQ.CellVal.uninit, none⟩).next = none) ∧
     (LBQ.contents Wit.wL7 = [] ↔ (0 : Nat) = 1) ∧
     LBQ.emptyOp Wit.wL7 =
       some (Wit.wL7.heap.getD 0 ⟨LBQ.CellVal.uninit, none⟩).next.isNone ∧
     (2 : Nat) ≠ 1 ∧ Wit.wL79.front = Wit.wL7.front ∧
     Wit.wL79.heap.getD 1 ⟨LBQ.CellVal.uninit, none⟩ =
       ⟨LBQ.CellVal.live 9, some 2⟩ ∧
     Wit.wL79.heap.getD 2 ⟨LBQ.CellVal.uninit, none⟩ =
       ⟨LBQ.CellVal.uninit, none⟩) :=
  ⟨by decide, by decide, by decide, by decide, by decide,
    c5_sentinel_at_tail [7] [SdOp.push] Wit.wL7 [] 0 1 9 Wit.wL79 2
      (by decide) (by decide) (by decide) (by decide) (by decide)⟩

/-- Witness for claim C6 on reachable empty states of both queues. -/
theorem c6_try_pop_empty_witness :
    ABQ.runA (ABQ.initA Nat (2 ^ 1)) [3, 4]
        [SdOp.push, SdOp.pop, SdOp.push, SdOp.pop] = some (Wit.wA1, [3, 4]) ∧
    Wit.wA1.head = Wit.wA1.tail ∧
    LBQ.runL (LBQ.initL Nat) [7, 8]
        [SdOp.push, SdOp.pop, SdOp.push, SdOp.pop] = some (Wit.wL1, [7, 8]) ∧
    LBQ.emptyOp Wit.wL1 = some true ∧
    (ABQ.try_pop Wit.wA1 = some (none, Wit.wA1) ∧
      LBQ.try_pop Wit.wL1 false = some (Except.ok (none, Wit.wL1))) :=
  ⟨by decide, by decide, by decide, by decide,
    c6_try_pop_empty 1 (by decide) [3, 4]
      [SdOp.push, SdOp.pop, SdOp.push, SdOp.pop] Wit.wA1 [3, 4]
      (by decide) (by decide) [7, 8]
      [SdOp.push, SdOp.pop, SdOp.push, SdOp.pop] Wit.wL1 [7, 8]
      (by decide) (by decide)⟩

/-- Witness for claim C7 on a non-empty queue with a non-empty free
list. -/
theorem c7_pop_frees_node_witness :
    LBQ.runL (LBQ.initL Nat) [7, 8] [SdOp.push, SdOp.push, SdOp.pop] =
        some (Wit.wL78, [7]) ∧
    Wit.wL78.front = some 1 ∧ Wit.wL78.freeList = some 0 ∧
    LBQ.pop_impl Wit.wL78 false = some (Except.ok (Wit.wL78pop, 8)) ∧
    (Wit.wL78pop.freeList = some 1 ∧
     (Wit.wL78pop.heap.getD 1 ⟨LBQ.CellVal.uninit, none⟩).next = some 0 ∧
     (Wit.wL78pop.heap.getD 1 ⟨LBQ.CellVal.uninit, none⟩).val = LBQ.CellVal.moved ∧
     LBQ.try_pop Wit.wL78 false = some (Except.ok (some 8, Wit.wL78pop)) ∧
     LBQ.contents Wit.wL78 = 8 :: LBQ.contents Wit.wL78pop) :=
  ⟨by decide, by decide, by decide, by decide,
    c7_pop_frees_node [7, 8] [SdOp.push, SdOp.push, SdOp.pop] Wit.wL78 [7]
      Wit.wL78pop 8 1 (some 0) (by decide) (by decide) (by decide) (by decide)⟩

/-- Witness for claim C8 at ticket 5, slot 0, capacity 2. -/
theorem c8_ticket_geometry_and_parity_witness :
    (0 : Nat) < 2 ^ 1 ∧
    ABQ.runA (ABQ.initA Nat (2 ^ 1)) [3] [SdOp.push] = some (Wit.wA3, []) ∧
    (ABQ.get_idx (2 ^ 1) 5 = 5 &&& (2 ^ 1 - 1) ∧
     ABQ.get_write_turn (2 ^ 1) 5 = 2 * (5 / 2 ^ 1) ∧
     ABQ.get_read_turn (2 ^ 1) 5 = 2 * (5 / 2 ^ 1) + 1 ∧
     ((Wit.wA3.vals.getD 0 none).isSome = true ↔
       Wit.wA3.turns.getD 0 0 % 2 = 1) ∧
     ABQ.has_val Wit.wA3 0 = (Wit.wA3.vals.getD 0 none).isSome) :=
  ⟨by decide, by decide,
    c8_ticket_geometry_and_parity 1 5 0 (by decide) (by decide) [3] [SdOp.push]
      Wit.wA3 [] (by decide)⟩

/-- Witness for claim C9 on a non-empty queue. -/
theorem c9_throwing_ctor_leaves_queue_witness :
    LBQ.runL (LBQ.initL Nat) [7, 8] [SdOp.push, SdOp.push, SdOp.pop] =
        some (Wit.wL78, [7]) ∧
    LBQ.contents Wit.wL78 ≠ [] ∧
    (LBQ.pop_impl Wit.wL78 true = some (Except.error Wit.wL78) ∧
     LBQ.try_pop Wit.wL78 true = some (Except.error Wit.wL78) ∧
     LBQ.pop Wit.wL78 true = some (Except.error Wit.wL78) ∧
     (LBQ.pop_impl Wit.wL78 false).map exceptIsOk = some true) :=
  ⟨by decide, by decide,
    c9_throwing_ctor_leaves_queue [7, 8] [SdOp.push, SdOp.push, SdOp.pop]
      Wit.wL78 [7] (by decide) (by decide)⟩

/-- Witness for claim C10 on a reachable queue state. -/
theorem c10_ends_never_null_witness :
    LBQ.runL (LBQ.initL Nat) [7, 8] [SdOp.push, SdOp.push, SdOp.pop] =
        some (Wit.wL78, [7]) ∧
    (Wit.wL78.front.isSome = true ∧ Wit.wL78.back.isSome = true ∧
      (LBQ.emptyOp Wit.wL78).isSome = true) :=
  ⟨by decide,
    c10_ends_never_null [7, 8] [SdOp.push, SdOp.push, SdOp.pop] Wit.wL78 [7]
      (by decide)⟩
